import Mathlib

/-!
# Verification of the SLSA GitHub Actions provenance generator

A shallow embedding of `create_provenance.go` (package `main` of
slsa-framework/github-actions-demo) together with proofs about it.

The embedding models:
* the SHA-256 hashing of file contents (`crypto/sha256` + `encoding/hex`),
* JSON values, parsing (`encoding/json` syntax) and the struct
  unmarshalling used for `GitHubContext`, `RunnerContext` and `AnyEvent`,
* the `subjects` walker: ancestor/broken-symlink validation and the
  file-tree walk (`filepath.Walk` reads directory entries in sorted order),
* the `main` statement-construction pipeline.

Machine integers are `Nat` with explicit reduction modulo `2 ^ 32` where the
Go code uses `uint32` arithmetic.  File systems are modelled as finite trees
(`Fs`), the ancestor checks go through an explicit OS oracle (`OSOracle`)
because `os.Stat`/`os.Readlink` semantics live in the operating system, not
in this repository.
-/

namespace Provenance

/-! ## SHA-256 (crypto/sha256), over byte lists -/

/-- `2 ^ 32`, the modulus of Go's `uint32` arithmetic. -/
def w32 : Nat := 4294967296

/-- Rotate a 32-bit word right by `k`. -/
def rotr (k x : Nat) : Nat := (x / 2 ^ k + x % 2 ^ k * 2 ^ (32 - k)) % w32

/-- Logical shift right by `k`. -/
def shr (k x : Nat) : Nat := x / 2 ^ k

def smallSigma0 (x : Nat) : Nat := rotr 7 x ^^^ rotr 18 x ^^^ shr 3 x
def smallSigma1 (x : Nat) : Nat := rotr 17 x ^^^ rotr 19 x ^^^ shr 10 x
def bigSigma0 (x : Nat) : Nat := rotr 2 x ^^^ rotr 13 x ^^^ rotr 22 x
def bigSigma1 (x : Nat) : Nat := rotr 6 x ^^^ rotr 11 x ^^^ rotr 25 x
def chFn (x y z : Nat) : Nat := (x &&& y) ^^^ ((x ^^^ 4294967295) &&& z)
def majFn (x y z : Nat) : Nat := (x &&& y) ^^^ (x &&& z) ^^^ (y &&& z)

/-- SHA-256 initial hash value (FIPS 180-4 §5.3.3). -/
def sha256H0 : List Nat :=
  [1779033703, 3144134277, 1013904242,
   2773480762, 1359893119, 2600822924,
   528734635, 1541459225]

/-- SHA-256 round constants (FIPS 180-4 §4.2.2). -/
def sha256K : List Nat :=
  [1116352408, 1899447441, 3049323471, 3921009573, 961987163,
   1508970993, 2453635748, 2870763221, 3624381080, 310598401,
   607225278, 1426881987, 1925078388, 2162078206, 2614888103,
   3248222580, 3835390401, 4022224774, 264347078, 604807628,
   770255983, 1249150122, 1555081692, 1996064986, 2554220882,
   2821834349, 2952996808, 3210313671, 3336571891, 3584528711,
   113926993, 338241895, 666307205, 773529912, 1294757372,
   1396182291, 1695183700, 1986661051, 2177026350, 2456956037,
   2730485921, 2820302411, 3259730800, 3345764771, 3516065817,
   3600352804, 4094571909, 275423344, 430227734, 506948616,
   659060556, 883997877, 958139571, 1322822218, 1537002063,
   1747873779, 1955562222, 2024104815, 2227730452, 2361852424,
   2428436474, 2756734187, 3204031479, 3329325298]

/-- `k` bytes of `v`, big-endian. -/
def beBytes : Nat → Nat → List Nat
  | 0, _ => []
  | k + 1, v => beBytes k (v / 256) ++ [v % 256]

/-- FIPS 180-4 §5.1.1 message padding: append `0x80`, zero bytes up to
56 mod 64, then the bit length as 8 big-endian bytes. -/
def sha256Pad (msg : List Nat) : List Nat :=
  msg ++ 128 :: List.replicate ((119 - msg.length % 64) % 64) 0
      ++ beBytes 8 (msg.length * 8)

/-- Big-endian 4-byte groups to 32-bit words. -/
def toWords : List Nat → List Nat
  | b0 :: b1 :: b2 :: b3 :: rest =>
      (((b0 * 256 + b1) * 256 + b2) * 256 + b3) :: toWords rest
  | _ => []

/-- Split a word list into blocks of 16 words (fuel-driven so that the
kernel can evaluate it; `fuel = ws.length` always suffices because every
step consumes at least one element). -/
def chunks16Go : Nat → List Nat → List (List Nat)
  | 0, _ => []
  | _, [] => []
  | f + 1, w :: ws => ((w :: ws).take 16) :: chunks16Go f ((w :: ws).drop 16)

/-- Split a word list into blocks of 16 words. -/
def chunks16 (ws : List Nat) : List (List Nat) := chunks16Go ws.length ws

/-- Extend a 16-word block to the 64-word message schedule
(FIPS 180-4 §6.2.2 step 1); `fuel` is 48 at the call site. -/
def sha256Schedule : Nat → List Nat → List Nat
  | 0, ws => ws
  | f + 1, ws =>
      let n := ws.length
      let nw := (smallSigma1 (ws.getD (n - 2) 0) + ws.getD (n - 7) 0
                 + smallSigma0 (ws.getD (n - 15) 0) + ws.getD (n - 16) 0) % w32
      sha256Schedule f (ws ++ [nw])

/-- One SHA-256 round on the eight working variables. -/
def sha256Round (st : List Nat) (kw : Nat × Nat) : List Nat :=
  match st with
  | [a, b, c, d, e, f, g, hh] =>
      let t1 := (hh + bigSigma1 e + chFn e f g + kw.1 + kw.2) % w32
      let t2 := (bigSigma0 a + majFn a b c) % w32
      [(t1 + t2) % w32, a, b, c, (d + t1) % w32, e, f, g]
  | _ => st

/-- Compress one 16-word block into the running hash. -/
def sha256Compress (h : List Nat) (chunk : List Nat) : List Nat :=
  let w := sha256Schedule 48 chunk
  let st := (sha256K.zip w).foldl sha256Round h
  List.zipWith (fun x y => (x + y) % w32) h st

/-- The SHA-256 digest of a byte list, as 32 bytes. -/
def sha256Bytes (msg : List Nat) : List Nat :=
  ((chunks16 (toWords (sha256Pad msg))).foldl sha256Compress sha256H0).flatMap
    (beBytes 4)

/-- One lowercase hexadecimal digit. -/
def hexDigit (n : Nat) : Char :=
  if n < 10 then Char.ofNat (48 + n) else Char.ofNat (87 + n)

/-- Two lowercase hex digits of a byte (encoding/hex). -/
def byteHex (b : Nat) : List Char := [hexDigit (b / 16), hexDigit (b % 16)]

/-- `hex.EncodeToString(sha256.Sum256(contents)[:])`: the lowercase
hexadecimal SHA-256 digest of a byte list. -/
def sha256Hex (msg : List Nat) : String :=
  String.mk ((sha256Bytes msg).flatMap byteHex)

/-! ## JSON values and parsing (encoding/json syntax)

`Json` is the abstract syntax of a JSON document.  Number literals keep
their lexeme (the Go code never reads a numeric value: numbers can only
occur inside the raw `event`/`inputs` payloads, which are passed through
verbatim, or cause an unmarshalling type error). -/

inductive Json where
  | null
  | bool (b : Bool)
  | num (lit : String)
  | str (s : String)
  | arr (elems : List Json)
  | obj (fields : List (String × Json))
deriving Repr

/-- JSON insignificant whitespace. -/
def jsonWs (c : Char) : Bool := c == ' ' || c == '\t' || c == '\n' || c == '\r'

def skipWs (cs : List Char) : List Char := cs.dropWhile jsonWs

def isDigitCh (c : Char) : Bool := '0' ≤ c && c ≤ '9'

/-- Value of one hexadecimal digit. -/
def hexVal (c : Char) : Option Nat :=
  if '0' ≤ c ∧ c ≤ '9' then some (c.toNat - 48)
  else if 'a' ≤ c ∧ c ≤ 'f' then some (c.toNat - 87)
  else if 'A' ≤ c ∧ c ≤ 'F' then some (c.toNat - 55)
  else none

/-- Parse the body of a string literal after the opening quote; returns the
decoded characters and the input after the closing quote.  Control
characters below 0x20 are rejected, escapes follow RFC 8259 (`\uXXXX`
becomes the character with that code; surrogate pairing is not modelled —
no claim exercises it). -/
def parseStrBody : Nat → List Char → Option (List Char × List Char)
  | 0, _ => none
  | _ + 1, [] => none
  | f + 1, c :: rest =>
    if c = '"' then some ([], rest)
    else if c = '\\' then
      match rest with
      | [] => none
      | e :: rest2 =>
        let cont : Char → List Char → Option (List Char × List Char) :=
          fun ch rem => (parseStrBody f rem).map fun sr => (ch :: sr.1, sr.2)
        if e = '"' then cont '"' rest2
        else if e = '\\' then cont '\\' rest2
        else if e = '/' then cont '/' rest2
        else if e = 'b' then cont (Char.ofNat 8) rest2
        else if e = 'f' then cont (Char.ofNat 12) rest2
        else if e = 'n' then cont '\n' rest2
        else if e = 'r' then cont '\r' rest2
        else if e = 't' then cont '\t' rest2
        else if e = 'u' then
          match rest2 with
          | h1 :: h2 :: h3 :: h4 :: rest3 =>
            match hexVal h1, hexVal h2, hexVal h3, hexVal h4 with
            | some a, some b, some c2, some d =>
                cont (Char.ofNat (((a * 16 + b) * 16 + c2) * 16 + d)) rest3
            | _, _, _, _ => none
          | _ => none
        else none
    else if c.toNat < 32 then none
    else (parseStrBody f rest).map fun sr => (c :: sr.1, sr.2)

def takeDigits (cs : List Char) : List Char × List Char :=
  (cs.takeWhile isDigitCh, cs.dropWhile isDigitCh)

/-- Optional fraction part of a number literal. -/
def parseFrac : List Char → Option (List Char × List Char)
  | '.' :: r =>
      match takeDigits r with
      | ([], _) => none
      | (ds, r2) => some ('.' :: ds, r2)
  | cs => some ([], cs)

/-- Optional exponent part of a number literal. -/
def parseExpPart : List Char → Option (List Char × List Char)
  | c :: r =>
    if c = 'e' ∨ c = 'E' then
      let sr : List Char × List Char :=
        match r with
        | s :: r2 => if s = '+' ∨ s = '-' then ([s], r2) else ([], r)
        | [] => ([], [])
      match takeDigits sr.2 with
      | ([], _) => none
      | (ds, r3) => some (c :: (sr.1 ++ ds), r3)
    else some ([], c :: r)
  | [] => some ([], [])

/-- A JSON number literal; returns its lexeme and the rest of the input. -/
def parseNumberLit (cs : List Char) : Option (List Char × List Char) :=
  let sc : List Char × List Char :=
    match cs with
    | '-' :: r => (['-'], r)
    | _ => ([], cs)
  match takeDigits sc.2 with
  | ([], _) => none
  | (ip, r1) =>
    match parseFrac r1 with
    | none => none
    | some (fp, r2) =>
      match parseExpPart r2 with
      | none => none
      | some (ep, r3) => some (sc.1 ++ ip ++ fp ++ ep, r3)

mutual

/-- Parse one JSON value (after skipping leading whitespace). -/
def parseVal : Nat → List Char → Option (Json × List Char)
  | 0, _ => none
  | f + 1, cs =>
    match skipWs cs with
    | [] => none
    | c :: rest =>
      if c = 'n' then
        match rest with
        | 'u' :: 'l' :: 'l' :: r => some (.null, r)
        | _ => none
      else if c = 't' then
        match rest with
        | 'r' :: 'u' :: 'e' :: r => some (.bool true, r)
        | _ => none
      else if c = 'f' then
        match rest with
        | 'a' :: 'l' :: 's' :: 'e' :: r => some (.bool false, r)
        | _ => none
      else if c = '"' then
        (parseStrBody (rest.length + 1) rest).map fun sr => (.str (String.mk sr.1), sr.2)
      else if c = '[' then
        match skipWs rest with
        | ']' :: r => some (.arr [], r)
        | cs2 => (parseElems f cs2).map fun er => (.arr er.1, er.2)
      else if c = '\x7b' then
        match skipWs rest with
        | '\x7d' :: r => some (.obj [], r)
        | cs2 => (parseMembers f cs2).map fun mr => (.obj mr.1, mr.2)
      else
        (parseNumberLit (c :: rest)).map fun lr => (.num (String.mk lr.1), lr.2)

/-- Parse the elements of a non-empty JSON array up to `]`. -/
def parseElems : Nat → List Char → Option (List Json × List Char)
  | 0, _ => none
  | f + 1, cs =>
    match parseVal f cs with
    | none => none
    | some (v, r1) =>
      match skipWs r1 with
      | ',' :: r2 => (parseElems f r2).map fun er => (v :: er.1, er.2)
      | ']' :: r2 => some ([v], r2)
      | _ => none

/-- Parse the members of a non-empty JSON object up to the closing brace. -/
def parseMembers : Nat → List Char → Option (List (String × Json) × List Char)
  | 0, _ => none
  | f + 1, cs =>
    match skipWs cs with
    | '"' :: r0 =>
      match parseStrBody (r0.length + 1) r0 with
      | none => none
      | some (k, r1) =>
        match skipWs r1 with
        | ':' :: r2 =>
          match parseVal f r2 with
          | none => none
          | some (v, r3) =>
            match skipWs r3 with
            | ',' :: r4 =>
                (parseMembers f r4).map fun mr => ((String.mk k, v) :: mr.1, mr.2)
            | '\x7d' :: r4 => some ([(String.mk k, v)], r4)
            | _ => none
        | _ => none
    | _ => none

end

/-- `json.Unmarshal`'s syntax phase: parse a whole string as one JSON value
(trailing non-whitespace input is an error).  The fuel `2 * length + 4`
strictly dominates the recursion depth of `parseVal`, which consumes at
least one character for every two units of fuel. -/
def jsonParse (s : String) : Option Json :=
  match parseVal (2 * s.data.length + 4) s.data with
  | some (v, rest) => if skipWs rest = [] then some v else none
  | none => none

/-! ## The attestation data model (the Go struct declarations)

`DigestSet` (`map[string]string` in Go) is an association list; the program
only ever builds singleton digest sets.  `json.RawMessage` fields become
`Option Json`: `none` is the nil raw message, `some j` holds the raw
sub-document.  `Recipe.Environment *AnyContext` becomes `Option AnyContext`
with `none` for the nil pointer. -/

def DigestSet : Type := List (String × String)
deriving instance DecidableEq, Repr for DigestSet

structure Subject where
  name : String
  digest : DigestSet
deriving DecidableEq, Repr

structure Item where
  uri : String
  digest : DigestSet
deriving DecidableEq, Repr

structure Builder where
  id : String := ""
deriving DecidableEq, Repr

structure Completeness where
  arguments : Bool
  environment : Bool
  materials : Bool
deriving DecidableEq, Repr

structure Metadata where
  buildInvocationId : String := ""
  completeness : Completeness
  reproducible : Bool
  buildFinishedOn : String
deriving DecidableEq, Repr

/-- The parsed `${github}` context (struct `GitHubContext`).  All fields are
modelled because `json.Unmarshal` type-checks every tagged key that is
present in the blob. -/
structure GitHubContext where
  action : String := ""
  actionPath : String := ""
  actor : String := ""
  baseRef : String := ""
  event : Option Json := none
  eventName : String := ""
  eventPath : String := ""
  headRef : String := ""
  job : String := ""
  ref : String := ""
  repository : String := ""
  repositoryOwner : String := ""
  runId : String := ""
  runNumber : String := ""
  sha : String := ""
  token : String := ""
  workflow : String := ""
  workspace : String := ""
deriving Repr

structure RunnerContext where
  os : String := ""
  temp : String := ""
  toolCache : String := ""
deriving DecidableEq, Repr

structure AnyContext where
  github : GitHubContext
  runner : RunnerContext
deriving Repr

/-- Struct `AnyEvent`: the only field read out of the raw event payload. -/
structure AnyEvent where
  inputs : Option Json := none
deriving Repr

structure Recipe where
  type : String
  definedInMaterial : Int
  entryPoint : String := ""
  arguments : Option Json := none
  environment : Option AnyContext := none
deriving Repr

structure Predicate where
  builder : Builder
  metadata : Metadata
  recipe : Recipe
  materials : List Item
deriving Repr

structure Statement where
  type : String
  subject : List Subject
  predicateType : String
  predicate : Predicate
deriving Repr

def GitHubHostedIdSuffix : String := "/Attestations/GitHubHostedActions@v1"
def SelfHostedIdSuffix : String := "/Attestations/SelfHostedActions@v1"
def TypeId : String := "https://github.com/Attestations/GitHubActionsWorkflow@v1"
def PayloadContentType : String := "application/vnd.in-toto+json"

/-! ## Struct unmarshalling (encoding/json semantics for these structs)

Go's decoder walks the object's members in order; a later duplicate key
overwrites an earlier one; an absent key leaves the zero value; a JSON
`null` leaves the field unchanged; a wrongly-typed value is an
`UnmarshalTypeError`, which makes `json.Unmarshal` return non-nil (the
program then panics).  Unknown keys are ignored.  A whole-document `null`
leaves the struct untouched; any other non-object document is a type
error. -/

/-- Assign one object member to a `GitHubContext` field, by struct tag. -/
def ghAssign (c : GitHubContext) (k : String) (v : Json) : Option GitHubContext :=
  let setStr : (String → GitHubContext) → Option GitHubContext := fun upd =>
    match v with
    | .str s => some (upd s)
    | .null => some c
    | _ => none
  if k = "action" then setStr fun s => { c with action := s }
  else if k = "action_path" then setStr fun s => { c with actionPath := s }
  else if k = "actor" then setStr fun s => { c with actor := s }
  else if k = "base_ref" then setStr fun s => { c with baseRef := s }
  else if k = "event" then some { c with event := some v }
  else if k = "event_name" then setStr fun s => { c with eventName := s }
  else if k = "event_path" then setStr fun s => { c with eventPath := s }
  else if k = "head_ref" then setStr fun s => { c with headRef := s }
  else if k = "job" then setStr fun s => { c with job := s }
  else if k = "ref" then setStr fun s => { c with ref := s }
  else if k = "repository" then setStr fun s => { c with repository := s }
  else if k = "repository_owner" then setStr fun s => { c with repositoryOwner := s }
  else if k = "run_id" then setStr fun s => { c with runId := s }
  else if k = "run_number" then setStr fun s => { c with runNumber := s }
  else if k = "sha" then setStr fun s => { c with sha := s }
  else if k = "token" then setStr fun s => { c with token := s }
  else if k = "workflow" then setStr fun s => { c with workflow := s }
  else if k = "workspace" then setStr fun s => { c with workspace := s }
  else some c

/-- `json.Unmarshal(blob, &context.GitHubContext)`. -/
def unmarshalGitHub (j : Json) : Option GitHubContext :=
  match j with
  | .null => some {}
  | .obj fields => fields.foldlM (fun c kv => ghAssign c kv.1 kv.2) {}
  | _ => none

/-- Assign one object member to a `RunnerContext` field, by struct tag. -/
def runnerAssign (c : RunnerContext) (k : String) (v : Json) : Option RunnerContext :=
  let setStr : (String → RunnerContext) → Option RunnerContext := fun upd =>
    match v with
    | .str s => some (upd s)
    | .null => some c
    | _ => none
  if k = "os" then setStr fun s => { c with os := s }
  else if k = "temp" then setStr fun s => { c with temp := s }
  else if k = "tool_cache" then setStr fun s => { c with toolCache := s }
  else some c

/-- `json.Unmarshal(blob, &context.RunnerContext)`. -/
def unmarshalRunner (j : Json) : Option RunnerContext :=
  match j with
  | .null => some {}
  | .obj fields => fields.foldlM (fun c kv => runnerAssign c kv.1 kv.2) {}
  | _ => none

/-- `json.Unmarshal(context.GitHubContext.Event, &event)`: unmarshalling a
nil raw message (`none`: the blob had no `event` member) is the error
`unexpected end of JSON input`; a raw `null` leaves the struct untouched;
for an object, only the `inputs` key is kept (as a raw message). -/
def unmarshalEvent : Option Json → Option AnyEvent
  | none => none
  | some .null => some {}
  | some (.obj fields) =>
      fields.foldlM
        (fun (e : AnyEvent) kv =>
          if kv.1 = "inputs" then some { e with inputs := some kv.2 } else some e)
        {}
  | some _ => none

/-! ## Path helpers (path/filepath, Unix rules) -/

/-- `filepath.Split`: everything up to and including the final `/`, and the
rest.  Computed on the character list. -/
def splitPathChars (cs : List Char) : List Char × List Char :=
  let r := cs.reverse
  ((r.dropWhile (· != '/')).reverse, (r.takeWhile (· != '/')).reverse)

/-- The directory part of `filepath.Split`. -/
def splitDir (p : String) : String := String.mk (splitPathChars p.data).1

/-- One pass of `filepath.Clean`'s element processing: drop empty and `.`
elements; `..` pops the previous element, is dropped at the root, and is
kept when there is nothing left to pop in a relative path. -/
def cleanComps (rooted : Bool) : List (List Char) → List (List Char) → List (List Char)
  | [], acc => acc.reverse
  | c :: rest, acc =>
    if c = [] ∨ c = ['.'] then cleanComps rooted rest acc
    else if c = ['.', '.'] then
      match acc with
      | [] =>
          if rooted then cleanComps rooted rest []
          else cleanComps rooted rest [['.', '.']]
      | a :: as2 =>
          if a = ['.', '.'] then cleanComps rooted rest (c :: a :: as2)
          else cleanComps rooted rest as2
    else cleanComps rooted rest (c :: acc)

/-- Split a character list at every `/` (strings.Split semantics: `n + 1`
groups for `n` separators, empty groups included). -/
def splitSlash : List Char → List (List Char)
  | [] => [[]]
  | c :: rest =>
      let r := splitSlash rest
      if c = '/' then [] :: r
      else (c :: r.headD []) :: r.tail

/-- Join character groups with `/` (strings.Join semantics). -/
def joinGroups : List (List Char) → List Char
  | [] => []
  | [g] => g
  | g :: gs => g ++ '/' :: joinGroups gs

/-- `filepath.Clean` (Unix): purely lexical normalization. -/
def cleanPath (p : String) : String :=
  if p = "" then "."
  else
    let rooted : Bool := p.data.headD ' ' == '/'
    let joined := joinGroups (cleanComps rooted (splitSlash p.data) [])
    if rooted then String.mk ('/' :: joined)
    else if joined = [] then "." else String.mk joined

/-- `filepath.Base` (Unix): strip trailing slashes, then keep everything
after the final slash; `""` gives `"."` and an all-slash path gives `"/"`. -/
def baseName (p : String) : String :=
  if p = "" then "."
  else
    let cs := (p.data.reverse.dropWhile (· == '/')).reverse
    if cs = [] then "/"
    else
      let base := (cs.reverse.takeWhile (· != '/')).reverse
      if base = [] then "/" else String.mk base

/-! ## The ancestor list (create_provenance.go lines 119–127)

```
parents := []string{root}
for {
    dir, _ := filepath.Split(parents[0])
    if dir == "" { break }
    parents = append([]string{filepath.Clean(dir)}, parents...)
}
```

The loop is modelled with fuel.  For a relative `root` the head of the
list gets strictly shorter on every iteration, so `root.length + 1` units
of fuel always reach the exit; for an absolute `root` the head eventually
becomes `"/"`, for which `filepath.Split` returns directory `"/"` (never
`""`), so the loop never exits — `parentsGo_slash` below proves that no
amount of fuel helps, i.e. the Go loop diverges. -/

def parentsGo : Nat → List String → Option (List String)
  | 0, _ => none
  | f + 1, ps =>
      let dir := splitDir (ps.headD "")
      if dir = "" then some ps
      else parentsGo f (cleanPath dir :: ps)

/-- The `parents` list computed by `subjects`, outermost ancestor first;
`none` means the loop never terminates. -/
def buildParents (root : String) : Option (List String) :=
  parentsGo (root.length + 1) [root]

/-- Once the head of the working list is `"/"`, the loop never exits:
`Split("/")` has directory part `"/"`, and `Clean("/") = "/"`. -/
theorem parentsGo_slash (f : Nat) : ∀ acc, parentsGo f ("/" :: acc) = none := by
  induction f with
  | zero => intro acc; rfl
  | succ f ih =>
      intro acc
      show parentsGo f ("/" :: "/" :: acc) = none
      exact ih ("/" :: acc)

/-! ## The OS oracle and the broken-symlink check (lines 128–136)

`os.Stat` follows symbolic links: statting a dangling symlink fails with a
not-exist error, statting a healthy symlink succeeds.  `os.Readlink`
returns the link target, or an error (modelled as `""` — the Go code only
compares the result against `""`, and ignores the error). -/

inductive StatRes where
  | ok
  | err (notExist : Bool)
deriving DecidableEq, Repr

structure OSOracle where
  stat : String → StatRes
  readlink : String → String

/-- The errors `subjects` can return from its validation phase.
`statFailure` is the unmodified `os.Stat` error (`notExist` records what
`os.IsNotExist` answers for it); `loopDiverges` marks the non-terminating
ancestor loop (absolute roots). -/
inductive EnumErr where
  | brokenSymlink (path : String)
  | statFailure (path : String) (notExist : Bool)
  | loopDiverges
deriving DecidableEq, Repr

/-- Lines 128–136: stat every parent, outermost first; on a failed stat,
report a broken symlink when the path is a readable link and the error is
not-exist, otherwise return the stat error itself. -/
def checkAncestors (o : OSOracle) : List String → Except EnumErr Unit
  | [] => .ok ()
  | p :: rest =>
      match o.stat p with
      | .ok => checkAncestors o rest
      | .err ne =>
          if o.readlink p ≠ "" ∧ ne then .error (.brokenSymlink p)
          else .error (.statFailure p ne)

/-! ## File trees and the walk (lines 137–162)

A mutual inductive keeps every recursion structural (well-founded
recursion would block kernel evaluation).  `filepath.Walk` reads each
directory's entries in sorted name order and recurses pre-order; the
callback skips directories, computes `filepath.Rel(root, abspath)` — which
for the paths `Walk` produces is exactly the `/`-joined list of entry
names, with `"."` (replaced by `filepath.Base(root)`) for the root
itself — and hashes the file's contents. -/

/-- A file tree.  A directory's contents are a spine of `dcons` cells
ending in `dnil`: the directory `[a ↦ t₁, b ↦ t₂]` is
`.dcons "a" t₁ (.dcons "b" t₂ .dnil)`.  (A `.file` in spine position is
not representable by a real file system; every function below treats it
as the end of the spine.) -/
inductive Fs where
  | file (contents : List Nat)
  | dnil
  | dcons (name : String) (child : Fs) (rest : Fs)
deriving DecidableEq, Repr

/-- Insert an entry into a name-sorted directory spine. -/
def insertEntry (n : String) (e : Fs) : Fs → Fs
  | .dcons m f rest =>
      if n ≤ m then .dcons n e (.dcons m f rest)
      else .dcons m f (insertEntry n e rest)
  | t => .dcons n e t

/-- Sort a directory spine by name (`filepath.Walk` reads each directory
through `readDirNames`, which sorts the names). -/
def sortSpine : Fs → Fs
  | .dcons n e rest => insertEntry n e (sortSpine rest)
  | t => t

/-- Size of a tree: an upper bound on the walk's recursion depth. -/
def fsize : Fs → Nat
  | .file _ => 1
  | .dnil => 1
  | .dcons _ e rest => 1 + fsize e + fsize rest

/-- `filepath.Rel(root, abspath)` for the paths produced by `Walk`: join
the relative prefix and the entry name with `/`. -/
def joinRel (pre n : String) : String :=
  if pre = "" then n else pre ++ "/" ++ n

mutual
/-- Visit one node of the walk at relative path `pre`: a file is emitted
with its contents, a directory is not emitted and its entries are
traversed in sorted order.  Fuel keeps the recursion structural; any
`fuel > fsize` is enough (`visitGo_spec`). -/
def visitGo : Nat → String → Fs → List (String × List Nat)
  | 0, _, _ => []
  | _ + 1, pre, .file c => [(pre, c)]
  | f + 1, pre, d => traverseGo f pre (sortSpine d)
/-- Walk along a directory spine, visiting each entry pre-order. -/
def traverseGo : Nat → String → Fs → List (String × List Nat)
  | 0, _, _ => []
  | f + 1, pre, .dcons n e rest => visitGo f (joinRel pre n) e ++ traverseGo f pre rest
  | _ + 1, _, _ => []
end

/-- Lines 137–162, given that the ancestor check passed: the files under
`root` with their relative slash-joined names, pre-order and sorted within
each directory; a plain-file root gets `filepath.Base(root)` for the `"."`
the relative path computes to. -/
def walkFiles (root : String) : Fs → List (String × List Nat)
  | .file c => [(baseName root, c)]
  | d => traverseGo (fsize d) "" (sortSpine d)

/-- One emitted subject: the digest set has the single `sha256` entry. -/
def mkSubject (p : String × List Nat) : Subject :=
  { name := p.1, digest := [("sha256", sha256Hex p.2)] }

def subjectsOf (root : String) (fs : Fs) : List Subject :=
  (walkFiles root fs).map mkSubject

/-- The whole of `subjects` (lines 117–163): build the parents list, stat
it outermost-first, then walk and hash. -/
def subjectsRun (o : OSOracle) (root : String) (fs : Fs) :
    Except EnumErr (List Subject) :=
  match buildParents root with
  | none => .error .loopDiverges
  | some ps =>
      match checkAncestors o ps with
      | .error e => .error e
      | .ok _ => .ok (subjectsOf root fs)

/-! ## The statement-construction pipeline (func main, lines 189–253)

The process inputs are the artifact path, the two context blobs (raw
strings), the process environment (for `os.Getenv("GITHUB_ACTIONS")`), and
the clock (`time.Now().UTC().Format(time.RFC3339)` is the opaque `now`
string).  Every abort — `os.Exit(1)` after a failed enumeration, or
`panic` after a failed parse — is an error result: no statement and no
output document exist in that case. -/

inductive MainErr where
  | enumFailed (e : EnumErr)
  | ghContextParse
  | runnerContextParse
  | eventParse
deriving DecidableEq, Repr

/-- Parse-then-unmarshal of the `--github_context` blob (line 217). -/
def parsedGitHub (s : String) : Option GitHubContext :=
  (jsonParse s).bind unmarshalGitHub

/-- Parse-then-unmarshal of the `--runner_context` blob (line 220). -/
def parsedRunner (s : String) : Option RunnerContext :=
  (jsonParse s).bind unmarshalRunner

/-- Lines 191 and 198–242 once all parsing succeeded: assemble the final
statement from the subject list, the parsed github context (the line-223
copy `gh`, taken before the token is blanked — but note no token-dependent
value flows into any field below), the parsed event, the hosted signal and
the clock. -/
def buildStatement (subs : List Subject) (gh : GitHubContext) (ev : AnyEvent)
    (hosted : Bool) (now : String) : Statement :=
  let repoURI := "https://github.com/" ++ gh.repository
  { type := "https://in-toto.io/Statement/v0.1"
    subject := subs
    predicateType := "https://in-toto.io/Provenance/v0.1"
    predicate :=
      { builder :=
          { id :=
              if hosted
              then repoURI ++ GitHubHostedIdSuffix
              else repoURI ++ SelfHostedIdSuffix }
        metadata :=
          { buildInvocationId := repoURI ++ "/actions/runs/" ++ gh.runId
            completeness :=
              { arguments := true, environment := false, materials := false }
            reproducible := false
            buildFinishedOn := now }
        recipe :=
          { type := TypeId
            definedInMaterial := 0
            entryPoint := gh.workflow
            arguments := ev.inputs
            environment := none }
        materials :=
          [{ uri := "git+" ++ repoURI, digest := [("sha1", gh.sha)] }] } }

def runMain (o : OSOracle) (fs : Fs) (artifactPath : String)
    (ghBlob rnBlob : String) (env : String → String) (now : String) :
    Except MainErr Statement :=
  match subjectsRun o artifactPath fs with
  | .error e => .error (.enumFailed e)
  | .ok subs =>
    match parsedGitHub ghBlob with
    | none => .error .ghContextParse
    | some gh =>
      match parsedRunner rnBlob with
      | none => .error .runnerContextParse
      | some _rn =>
        let redactedGitHub : GitHubContext := { gh with token := "" }
        match unmarshalEvent redactedGitHub.event with
        | none => .error .eventParse
        | some ev =>
            .ok (buildStatement subs gh ev (env "GITHUB_ACTIONS" == "true") now)

/-! ## Serialization of the statement (json.MarshalIndent, line 247)

The document is modelled at the JSON-value level, with the members in Go
struct declaration order (encoding/json emits struct fields in that
order).  A nil `json.RawMessage` and a nil pointer marshal as `null`; the
`Token` field carries `omitempty`. -/

def digestJson (d : DigestSet) : Json := .obj (d.map fun kv => (kv.1, .str kv.2))

def subjectJson (s : Subject) : Json :=
  .obj [("name", .str s.name), ("digest", digestJson s.digest)]

def itemJson (it : Item) : Json :=
  .obj [("uri", .str it.uri), ("digest", digestJson it.digest)]

def ghContextJson (c : GitHubContext) : Json :=
  .obj
    ([("action", .str c.action), ("action_path", .str c.actionPath),
      ("actor", .str c.actor), ("base_ref", .str c.baseRef),
      ("event", c.event.getD .null),
      ("event_name", .str c.eventName), ("event_path", .str c.eventPath),
      ("head_ref", .str c.headRef), ("job", .str c.job), ("ref", .str c.ref),
      ("repository", .str c.repository),
      ("repository_owner", .str c.repositoryOwner),
      ("run_id", .str c.runId), ("run_number", .str c.runNumber),
      ("sha", .str c.sha)]
      ++ (if c.token = "" then [] else [("token", .str c.token)])
      ++ [("workflow", .str c.workflow), ("workspace", .str c.workspace)])

def runnerContextJson (r : RunnerContext) : Json :=
  .obj [("os", .str r.os), ("temp", .str r.temp), ("tool_cache", .str r.toolCache)]

def anyContextJson (a : AnyContext) : Json :=
  .obj [("github", ghContextJson a.github), ("runner", runnerContextJson a.runner)]

/-- The serialized output document of a statement, as a JSON value. -/
def stmtToJson (st : Statement) : Json :=
  .obj
    [("_type", .str st.type),
     ("subject", .arr (st.subject.map subjectJson)),
     ("predicateType", .str st.predicateType),
     ("predicate", .obj
        [("builder", .obj [("id", .str st.predicate.builder.id)]),
         ("metadata", .obj
            [("buildInvocationId", .str st.predicate.metadata.buildInvocationId),
             ("completeness", .obj
                [("arguments", .bool st.predicate.metadata.completeness.arguments),
                 ("environment", .bool st.predicate.metadata.completeness.environment),
                 ("materials", .bool st.predicate.metadata.completeness.materials)]),
             ("reproducible", .bool st.predicate.metadata.reproducible),
             ("buildFinishedOn", .str st.predicate.metadata.buildFinishedOn)]),
         ("recipe", .obj
            [("type", .str st.predicate.recipe.type),
             ("definedInMaterial", .num (toString st.predicate.recipe.definedInMaterial)),
             ("entryPoint", .str st.predicate.recipe.entryPoint),
             ("arguments", st.predicate.recipe.arguments.getD .null),
             ("environment",
                match st.predicate.recipe.environment with
                | none => .null
                | some a => anyContextJson a)]),
         ("materials", .arr (st.predicate.materials.map itemJson))])]

/-! ## Spec-side definitions

These follow the *spec's words*, independently of the walk above; the
refinement claims compare the two. -/

/-- Spec side ("pre-order, lexicographic within each directory"): sort a
whole tree recursively by entry name. -/
def sortFsAll : Fs → Fs
  | .file c => .file c
  | .dnil => .dnil
  | .dcons n e rest => insertEntry n (sortFsAll e) (sortFsAll rest)

/-- Canonicalize only the children of a spine, keeping the spine order. -/
def sortKids : Fs → Fs
  | .dcons n e rest => .dcons n (sortFsAll e) (sortKids rest)
  | t => t

/-- Spec side ("each named by its correct relative, forward-slash-normalized
path"): the `(relative path, contents)` pairs of all regular files of a
tree in listing order, pre-order; directories are never emitted. -/
def specFiles : String → Fs → List (String × List Nat)
  | pre, .file c => [(pre, c)]
  | _, .dnil => []
  | pre, .dcons n e rest => specFiles (joinRel pre n) e ++ specFiles pre rest

/-- Spec side ("containing N regular files at any nesting depth"): the
number of regular files in a tree. -/
def fileCount : Fs → Nat
  | .file _ => 1
  | .dnil => 0
  | .dcons _ e rest => fileCount e + fileCount rest

/-- A plain path component: nonempty, not a dot element, no separator. -/
def plainComp (c : String) : Bool :=
  c != "" && c != "." && c != ".." && !(c.data.contains '/')

/-- Join path components with `/`. -/
def joinComps : List String → String
  | [] => ""
  | [c] => c
  | c :: cs => c ++ "/" ++ joinComps cs

/-- Spec side ("each ancestor path of root in order from outermost to
innermost"): the chain of ancestors of the path with the given components,
outermost first, ending with the path itself. -/
def ancChainGo (pre : String) : List String → List String
  | [] => []
  | c :: cs => joinRel pre c :: ancChainGo (joinRel pre c) cs

def ancChain (cs : List String) : List String := ancChainGo "" cs

/-! ## Well-formed trees

`wfF true t` says `t` is a well-formed node (a file, or a directory with a
well-formed spine); `wfF false t` says `t` is a well-formed spine (no
`.file` in spine position).  Real file systems only produce well-formed
trees. -/

def wfF : Bool → Fs → Bool
  | asNode, .file _ => asNode
  | _, .dnil => true
  | _, .dcons _ e rest => wfF true e && wfF false rest

/-! ## Walk/spec correspondence (claim C4 machinery) -/

theorem fsize_pos (t : Fs) : 1 ≤ fsize t := by
  cases t <;> simp only [fsize] <;> omega

theorem fsize_insertEntry (n : String) (e t : Fs) :
    fsize (insertEntry n e t) = 1 + fsize e + fsize t := by
  induction t with
  | file c => rfl
  | dnil => rfl
  | dcons m g r ihg ihr =>
      rw [insertEntry]
      by_cases h : n ≤ m
      · rw [if_pos h]; rfl
      · rw [if_neg h]
        simp only [fsize, ihr]
        omega

theorem fsize_sortSpine (t : Fs) : fsize (sortSpine t) = fsize t := by
  induction t with
  | file c => rfl
  | dnil => rfl
  | dcons n e rest ihe ihr =>
      rw [sortSpine, fsize_insertEntry, ihr, fsize]

theorem sortKids_insertEntry (n : String) (e t : Fs) :
    sortKids (insertEntry n e t) = insertEntry n (sortFsAll e) (sortKids t) := by
  induction t with
  | file c => rfl
  | dnil => rfl
  | dcons m g r ihg ihr =>
      rw [insertEntry]
      by_cases h : n ≤ m
      · rw [if_pos h]
        show Fs.dcons n (sortFsAll e) (Fs.dcons m (sortFsAll g) (sortKids r))
            = insertEntry n (sortFsAll e) (Fs.dcons m (sortFsAll g) (sortKids r))
        rw [insertEntry, if_pos h]
      · rw [if_neg h]
        show Fs.dcons m (sortFsAll g) (sortKids (insertEntry n e r))
            = insertEntry n (sortFsAll e) (Fs.dcons m (sortFsAll g) (sortKids r))
        rw [insertEntry, if_neg h, ihr]

theorem sortKids_sortSpine (t : Fs) : sortKids (sortSpine t) = sortFsAll t := by
  induction t with
  | file c => rfl
  | dnil => rfl
  | dcons n e rest ihe ihr =>
      rw [sortSpine, sortKids_insertEntry, ihr, sortFsAll]

theorem wf_insertEntry (n : String) (e t : Fs) (he : wfF true e = true)
    (ht : wfF false t = true) : wfF false (insertEntry n e t) = true := by
  induction t with
  | file c => exact absurd ht (by simp [wfF])
  | dnil => simp [insertEntry, wfF, he]
  | dcons m g r ihg ihr =>
      rw [wfF, Bool.and_eq_true] at ht
      rw [insertEntry]
      by_cases h : n ≤ m
      · rw [if_pos h]
        simp [wfF, he, ht.1, ht.2]
      · rw [if_neg h]
        simp [wfF, ht.1, ihr ht.2]

theorem wf_sortSpine (t : Fs) (ht : wfF false t = true) :
    wfF false (sortSpine t) = true := by
  induction t with
  | file c => exact absurd ht (by simp [wfF])
  | dnil => exact ht
  | dcons n e rest ihe ihr =>
      rw [wfF, Bool.and_eq_true] at ht
      rw [sortSpine]
      exact wf_insertEntry n e _ ht.1 (ihr ht.2)

/-- The walk equals the spec-side listing of the canonically sorted tree:
visiting a well-formed node with enough fuel yields `specFiles` of its
recursive sort, and traversing a well-formed spine yields `specFiles` of
the spine with canonicalized children. -/
theorem walk_spec (f : Nat) :
    (∀ pre e, fsize e < f → wfF true e = true →
        visitGo f pre e = specFiles pre (sortFsAll e))
  ∧ (∀ pre s, fsize s ≤ f → wfF false s = true →
        traverseGo f pre s = specFiles pre (sortKids s)) := by
  induction f with
  | zero =>
      constructor
      · intro pre e hf _; omega
      · intro pre s hf _
        have := fsize_pos s; omega
  | succ f ih =>
      constructor
      · intro pre e hf hwf
        match e with
        | .file c => rfl
        | .dnil =>
            show traverseGo f pre (sortSpine .dnil) = specFiles pre (sortFsAll .dnil)
            rw [show sortSpine Fs.dnil = Fs.dnil from rfl,
                show sortFsAll Fs.dnil = Fs.dnil from rfl,
                ← show sortKids Fs.dnil = Fs.dnil from rfl]
            exact ih.2 pre .dnil (by simp [fsize] at hf ⊢; omega) rfl
        | .dcons n e rest =>
            show traverseGo f pre (sortSpine (.dcons n e rest))
                = specFiles pre (sortFsAll (.dcons n e rest))
            rw [← sortKids_sortSpine]
            exact ih.2 pre _
              (by rw [fsize_sortSpine]; omega)
              (wf_sortSpine _ (by rw [show wfF false (Fs.dcons n e rest) = wfF true (Fs.dcons n e rest) from rfl]; exact hwf))
      · intro pre s hf hwf
        match s with
        | .file c => exact absurd hwf (by simp [wfF])
        | .dnil => rfl
        | .dcons n e rest =>
            rw [wfF, Bool.and_eq_true] at hwf
            have hse : fsize e + fsize rest ≤ f := by
              have : fsize (Fs.dcons n e rest) = 1 + fsize e + fsize rest := rfl
              omega
            have hrest1 := fsize_pos rest
            have he := ih.1 (joinRel pre n) e (by omega) hwf.1
            have hr := ih.2 pre rest (by omega) hwf.2
            show visitGo f (joinRel pre n) e ++ traverseGo f pre rest
                = specFiles pre (sortKids (Fs.dcons n e rest))
            rw [he, hr]
            rfl

theorem length_specFiles (pre : String) (t : Fs) :
    (specFiles pre t).length = fileCount t := by
  induction t generalizing pre with
  | file c => rfl
  | dnil => rfl
  | dcons n e rest ihe ihr =>
      rw [specFiles, List.length_append, ihe, ihr, fileCount]

theorem fileCount_insertEntry (n : String) (e t : Fs) :
    fileCount (insertEntry n e t) = fileCount e + fileCount t := by
  induction t with
  | file c => rfl
  | dnil => rfl
  | dcons m g r ihg ihr =>
      rw [insertEntry]
      by_cases h : n ≤ m
      · rw [if_pos h]; rfl
      · rw [if_neg h]
        simp only [fileCount, ihr]
        omega

theorem fileCount_sortFsAll (t : Fs) : fileCount (sortFsAll t) = fileCount t := by
  induction t with
  | file c => rfl
  | dnil => rfl
  | dcons n e rest ihe ihr =>
      rw [sortFsAll, fileCount_insertEntry, ihe, ihr, fileCount]

theorem specFiles_insertEntry_perm (pre n : String) (e t : Fs) :
    (specFiles pre (insertEntry n e t)).Perm
      (specFiles (joinRel pre n) e ++ specFiles pre t) := by
  induction t with
  | file c => exact List.Perm.refl _
  | dnil => exact List.Perm.refl _
  | dcons m g r ihg ihr =>
      rw [insertEntry]
      by_cases h : n ≤ m
      · rw [if_pos h]
        exact List.Perm.refl _
      · rw [if_neg h]
        show (specFiles (joinRel pre m) g ++ specFiles pre (insertEntry n e r)).Perm _
        have h1 := ihr.append_left (specFiles (joinRel pre m) g)
        have h2 := List.perm_append_comm_assoc (specFiles (joinRel pre m) g)
          (specFiles (joinRel pre n) e) (specFiles pre r)
        exact h1.trans h2

theorem specFiles_sortFsAll_perm (pre : String) (t : Fs) :
    (specFiles pre (sortFsAll t)).Perm (specFiles pre t) := by
  induction t generalizing pre with
  | file c => exact List.Perm.refl _
  | dnil => exact List.Perm.refl _
  | dcons n e rest ihe ihr =>
      rw [sortFsAll]
      exact (specFiles_insertEntry_perm pre n _ _).trans ((ihe _).append (ihr _))

/-- The walk of a well-formed directory root is the spec-side listing of
the canonically sorted tree. -/
theorem walkFiles_spec (root : String) (d : Fs) (hd : wfF false d = true) :
    walkFiles root d = specFiles "" (sortFsAll d) := by
  have key : ∀ t, wfF false t = true →
      traverseGo (fsize t) "" (sortSpine t) = specFiles "" (sortFsAll t) := by
    intro t ht
    have h := (walk_spec (fsize t)).2 "" (sortSpine t)
      (le_of_eq (fsize_sortSpine t)) (wf_sortSpine t ht)
    rw [h, sortKids_sortSpine]
  cases d with
  | file c => simp [wfF] at hd
  | dnil => exact key .dnil hd
  | dcons n e rest => exact key (.dcons n e rest) hd

/-- If every listed ancestor stats successfully, the validation passes. -/
theorem checkAncestors_ok (o : OSOracle) (ps : List String)
    (h : ∀ p ∈ ps, o.stat p = .ok) : checkAncestors o ps = .ok () := by
  induction ps with
  | nil => rfl
  | cons p rest ih =>
      rw [checkAncestors, h p (by simp)]
      exact ih fun q hq => h q (by simp [hq])

/-- If the ancestor list is built and every entry stats successfully, the
enumeration returns the walked subjects (for any tree contents). -/
theorem subjectsRun_ok (o : OSOracle) (root : String) (fs : Fs) (ps : List String)
    (hp : buildParents root = some ps) (hs : ∀ p ∈ ps, o.stat p = .ok) :
    subjectsRun o root fs = .ok (subjectsOf root fs) := by
  simp only [subjectsRun, hp, checkAncestors_ok o ps hs]

/-! ## Character-list and path lemmas (claims C2 and C5 machinery) -/

theorem dropWhile_append_all {p : Char → Bool} (xs : List Char)
    (h : ∀ x ∈ xs, p x = true) (ys : List Char) :
    (xs ++ ys).dropWhile p = ys.dropWhile p := by
  induction xs with
  | nil => rfl
  | cons x xs ih =>
      rw [List.cons_append, List.dropWhile_cons, h x (by simp)]
      exact ih (fun x hx => h x (by simp [hx]))

theorem dropWhile_all_nil {p : Char → Bool} (xs : List Char)
    (h : ∀ x ∈ xs, p x = true) : xs.dropWhile p = [] := by
  have := dropWhile_append_all xs h []
  rwa [List.append_nil] at this

theorem dropWhile_all_false {p : Char → Bool} (xs : List Char)
    (h : ∀ x ∈ xs, p x = false) : xs.dropWhile p = xs := by
  cases xs with
  | nil => rfl
  | cons x rest => rw [List.dropWhile_cons, h x (by simp)]; rfl

theorem takeWhile_append_all {p : Char → Bool} (xs : List Char)
    (h : ∀ x ∈ xs, p x = true) (ys : List Char) :
    (xs ++ ys).takeWhile p = xs ++ ys.takeWhile p := by
  induction xs with
  | nil => rfl
  | cons x xs ih =>
      rw [List.cons_append, List.takeWhile_cons, h x (by simp), List.cons_append]
      rw [ih (fun x hx => h x (by simp [hx]))]
      rfl

theorem takeWhile_all {p : Char → Bool} (xs : List Char)
    (h : ∀ x ∈ xs, p x = true) : xs.takeWhile p = xs := by
  have := takeWhile_append_all xs h []
  rwa [List.append_nil, List.takeWhile_nil, List.append_nil] at this

theorem strData_append (a b : String) : (a ++ b).data = a.data ++ b.data := rfl

theorem strMk_data (s : String) : String.mk s.data = s := rfl

theorem str_ne_empty (s : String) (h : s.data ≠ []) : s ≠ "" :=
  fun he => h (by rw [he])

/-- A plain component's characters: nonempty and without separators. -/
theorem plainComp_spec (c : String) (h : plainComp c = true) :
    c.data ≠ [] ∧ (∀ ch ∈ c.data, ch ≠ '/') ∧ c ≠ "" ∧ c ≠ "." ∧ c ≠ ".." := by
  rw [plainComp] at h
  simp only [Bool.and_eq_true, bne_iff_ne, ne_eq, Bool.not_eq_true'] at h
  obtain ⟨⟨⟨h1, h2⟩, h3⟩, h4⟩ := h
  have h4' : ('/' : Char) ∉ c.data := by simpa using h4
  refine ⟨?_, ?_, h1, h2, h3⟩
  · intro hd
    exact h1 (by rw [← strMk_data c, hd])
  · intro ch hch he
    subst he
    exact h4' hch

/-- `filepath.Split` of a separator-free path has an empty directory part. -/
theorem splitDir_no_slash (c : String) (h : ∀ ch ∈ c.data, ch ≠ '/') :
    splitDir c = "" := by
  rw [splitDir, splitPathChars]
  rw [dropWhile_all_nil c.data.reverse
    (fun x hx => by
      have : x ≠ '/' := h x (List.mem_reverse.mp hx)
      simpa using this)]
  rfl

/-- `filepath.Split` after the last separator: the directory part keeps
the separator. -/
theorem splitDir_append (xs ys : List Char) (h : ∀ ch ∈ ys, ch ≠ '/') :
    splitDir (String.mk (xs ++ '/' :: ys)) = String.mk (xs ++ ['/']) := by
  rw [splitDir, splitPathChars]
  show String.mk (((xs ++ '/' :: ys).reverse.dropWhile (· != '/')).reverse) = _
  rw [show (xs ++ '/' :: ys).reverse = ys.reverse ++ '/' :: xs.reverse by
    rw [List.reverse_append, List.reverse_cons, List.append_assoc]; rfl]
  rw [dropWhile_append_all ys.reverse
    (fun x hx => by
      have : x ≠ '/' := h x (List.mem_reverse.mp hx)
      simpa using this)]
  rw [List.dropWhile_cons]
  simp only [bne_self_eq_false, Bool.false_eq_true, if_false]
  rw [List.reverse_cons, List.reverse_reverse]

/-- `joinComps` through a nonempty head list. -/
theorem joinComps_cons (c : String) (cs : List String) (h : cs ≠ []) :
    joinComps (c :: cs) = c ++ "/" ++ joinComps cs := by
  cases cs with
  | nil => exact absurd rfl h
  | cons d ds => rfl

theorem joinComps_snoc (ds : List String) (c : String) (h : ds ≠ []) :
    joinComps (ds ++ [c]) = joinComps ds ++ "/" ++ c := by
  induction ds with
  | nil => exact absurd rfl h
  | cons d ds ih =>
      cases ds with
      | nil => rfl
      | cons e es =>
          rw [List.cons_append, joinComps_cons d ((e :: es) ++ [c]) (by simp),
            ih (by simp), joinComps_cons d (e :: es) (by simp)]
          simp [String.append_assoc]

theorem joinComps_data_ne (ds : List String) (hne : ds ≠ [])
    (hp : ∀ c ∈ ds, plainComp c = true) : (joinComps ds).data ≠ [] := by
  cases ds with
  | nil => exact absurd rfl hne
  | cons d ds =>
      have hd := (plainComp_spec d (hp d (by simp))).1
      cases ds with
      | nil => exact hd
      | cons e es =>
          rw [joinComps_cons d (e :: es) (by simp), strData_append, strData_append]
          intro h
          rw [List.append_assoc] at h
          exact hd (List.append_eq_nil.mp h).1

/-- The head character of a plain-component path is not a separator. -/
theorem joinComps_head (d : String) (ds : List String) (hd : plainComp d = true) :
    ∀ tail : List Char,
      ((joinComps (d :: ds)).data ++ tail).headD ' ' ≠ '/' := by
  intro tail
  obtain ⟨hne, hns, -⟩ := plainComp_spec d hd
  have hstart : ∃ rest, (joinComps (d :: ds)).data = d.data ++ rest := by
    cases ds with
    | nil => exact ⟨[], by rw [List.append_nil]; rfl⟩
    | cons e es =>
        refine ⟨("/" ++ joinComps (e :: es)).data, ?_⟩
        rw [joinComps_cons d (e :: es) (by simp), String.append_assoc,
          strData_append]
  obtain ⟨rest, hrest⟩ := hstart
  rw [hrest]
  cases hd2 : d.data with
  | nil => exact absurd hd2 hne
  | cons ch t =>
      have : ch ≠ '/' := hns ch (by rw [hd2]; simp)
      simpa using this

theorem splitSlash_ne_nil (cs : List Char) : splitSlash cs ≠ [] := by
  cases cs with
  | nil => simp [splitSlash]
  | cons c rest =>
      rw [splitSlash]
      by_cases h : c = '/' <;> simp [h]

theorem splitSlash_slash_cons (ys : List Char) :
    splitSlash ('/' :: ys) = [] :: splitSlash ys := by
  rw [splitSlash]
  simp

theorem splitSlash_append_noslash (xs : List Char) (h : ∀ ch ∈ xs, ch ≠ '/') :
    ∀ ys, splitSlash (xs ++ ys)
      = (xs ++ (splitSlash ys).headD []) :: (splitSlash ys).tail := by
  induction xs with
  | nil =>
      intro ys
      cases hy : splitSlash ys with
      | nil => exact absurd hy (splitSlash_ne_nil ys)
      | cons g gs => rw [List.nil_append, hy]; simp
  | cons x xs ih =>
      intro ys
      have hx : x ≠ '/' := h x (by simp)
      rw [List.cons_append, splitSlash]
      simp only [if_neg hx]
      rw [ih (fun c hc => h c (by simp [hc])) ys]
      simp

/-- Splitting a `/`-joined list of separator-free components (with a
trailing separator) recovers the components plus one empty group. -/
theorem splitSlash_join (ds : List String) (hne : ds ≠ [])
    (hp : ∀ c ∈ ds, plainComp c = true) :
    splitSlash ((joinComps ds).data ++ ['/']) = ds.map String.data ++ [[]] := by
  induction ds with
  | nil => exact absurd rfl hne
  | cons d ds ih =>
      have hd := plainComp_spec d (hp d (by simp))
      cases ds with
      | nil =>
          show splitSlash (d.data ++ ['/']) = [d.data, []]
          rw [splitSlash_append_noslash d.data hd.2.1 ['/'],
            show splitSlash ['/'] = [[], []] from rfl]
          simp
      | cons e es =>
          rw [joinComps_cons d (e :: es) (by simp), String.append_assoc,
            strData_append]
          rw [show ("/" ++ joinComps (e :: es)).data
              = '/' :: (joinComps (e :: es)).data from rfl]
          rw [List.append_assoc]
          rw [splitSlash_append_noslash d.data hd.2.1]
          simp only [List.cons_append, splitSlash_slash_cons]
          rw [ih (by simp) (fun c hc => hp c (by simp [hc]))]
          simp

/-- Cleaning a list of plain groups (with the trailing empty group of a
trailing separator) keeps exactly the groups. -/
theorem cleanComps_plain (gs : List (List Char))
    (h : ∀ g ∈ gs, g ≠ [] ∧ g ≠ ['.'] ∧ g ≠ ['.', '.']) :
    ∀ acc, cleanComps false (gs ++ [[]]) acc = acc.reverse ++ gs := by
  induction gs with
  | nil =>
      intro acc
      show cleanComps false [[]] acc = acc.reverse ++ []
      rw [show cleanComps false [[]] acc = acc.reverse from rfl, List.append_nil]
  | cons g gs ih =>
      intro acc
      obtain ⟨h1, h2, h3⟩ := h g (by simp)
      rw [List.cons_append, cleanComps.eq_def]
      dsimp only []
      rw [if_neg (by simp [h1, h2]), if_neg h3,
        ih (fun g hg => h g (by simp [hg])) (g :: acc)]
      simp

theorem joinGroups_cons (g : List Char) (gs : List (List Char)) (h : gs ≠ []) :
    joinGroups (g :: gs) = g ++ '/' :: joinGroups gs := by
  cases gs with
  | nil => exact absurd rfl h
  | cons e es => rfl

/-- Joining the groups of plain components gives back the joined path. -/
theorem joinGroups_map (ds : List String) (hne : ds ≠ []) :
    joinGroups (ds.map String.data) = (joinComps ds).data := by
  induction ds with
  | nil => exact absurd rfl hne
  | cons d ds ih =>
      cases ds with
      | nil => rfl
      | cons e es =>
          rw [List.map_cons, joinGroups_cons d.data _ (by simp), ih (by simp),
            joinComps_cons d (e :: es) (by simp), strData_append, strData_append,
            List.append_assoc]
          rfl

/-- `filepath.Clean` of a plain-component relative path with a trailing
separator just strips the separator. -/
theorem cleanPath_join (ds : List String) (hne : ds ≠ [])
    (hp : ∀ c ∈ ds, plainComp c = true) :
    cleanPath (joinComps ds ++ "/") = joinComps ds := by
  have hdata : (joinComps ds ++ "/").data = (joinComps ds).data ++ ['/'] := rfl
  have hne2 : joinComps ds ++ "/" ≠ "" :=
    str_ne_empty _ (by rw [hdata]; simp)
  obtain ⟨d, ds2, rfl⟩ : ∃ d ds2, ds = d :: ds2 := by
    cases ds with
    | nil => exact absurd rfl hne
    | cons d ds2 => exact ⟨d, ds2, rfl⟩
  have hgroups : ∀ g ∈ (d :: ds2).map String.data,
      g ≠ [] ∧ g ≠ ['.'] ∧ g ≠ ['.', '.'] := by
    intro g hg
    rw [List.mem_map] at hg
    obtain ⟨c, hc, rfl⟩ := hg
    obtain ⟨h1, -, -, h4, h5⟩ := plainComp_spec c (hp c hc)
    refine ⟨h1, ?_, ?_⟩
    · intro he; exact h4 (by rw [← strMk_data c, he])
    · intro he; exact h5 (by rw [← strMk_data c, he])
  have hroot : ((joinComps (d :: ds2) ++ "/").data.headD ' ' == '/') = false := by
    rw [hdata]
    exact beq_eq_false_iff_ne.mpr (joinComps_head d ds2 (hp d (by simp)) ['/'])
  rw [cleanPath, if_neg hne2]
  dsimp only []
  rw [hroot, hdata, splitSlash_join (d :: ds2) (by simp) hp,
    cleanComps_plain ((d :: ds2).map String.data) hgroups [],
    List.reverse_nil, List.nil_append,
    joinGroups_map (d :: ds2) (by simp)]
  rw [if_neg (show ¬((false : Bool) = true) from Bool.false_ne_true)]
  rw [if_neg (joinComps_data_ne (d :: ds2) (by simp) hp)]

/-- Left fold of `joinRel` along components. -/
def joinFold (pre : String) : List String → String
  | [] => pre
  | c :: cs => joinFold (joinRel pre c) cs

theorem ancChainGo_snoc (ds : List String) (c : String) :
    ∀ pre, ancChainGo pre (ds ++ [c])
      = ancChainGo pre ds ++ [joinRel (joinFold pre ds) c] := by
  induction ds with
  | nil => intro pre; rfl
  | cons d ds ih =>
      intro pre
      rw [List.cons_append, ancChainGo, ancChainGo, ih (joinRel pre d)]
      rfl

theorem append_slash_ne_empty (a b : String) : a ++ "/" ++ b ≠ "" := by
  apply str_ne_empty
  show (a.data ++ ['/']) ++ b.data ≠ []
  simp

theorem joinFold_ne_nil (ds : List String) (hd : ds ≠ []) :
    ∀ pre, pre ≠ "" → joinFold pre ds = pre ++ "/" ++ joinComps ds := by
  induction ds with
  | nil => exact absurd rfl hd
  | cons d ds ih =>
      intro pre hpre
      rw [joinFold, joinRel, if_neg hpre]
      cases ds with
      | nil => rfl
      | cons e es =>
          rw [ih (by simp) (pre ++ "/" ++ d) (append_slash_ne_empty pre d),
            joinComps_cons d (e :: es) (by simp)]
          simp [String.append_assoc]

theorem joinFold_empty (ds : List String) (hd : ds ≠ [])
    (hp : ∀ c ∈ ds, plainComp c = true) : joinFold "" ds = joinComps ds := by
  cases ds with
  | nil => exact absurd rfl hd
  | cons d ds =>
      rw [joinFold, joinRel, if_pos rfl]
      cases ds with
      | nil => rfl
      | cons e es =>
          rw [joinFold_ne_nil (e :: es) (by simp) d
              (plainComp_spec d (hp d (by simp))).2.2.1,
            joinComps_cons d (e :: es) (by simp)]

theorem ancChain_snoc (ds : List String) (c : String) (hd : ds ≠ [])
    (hp : ∀ x ∈ ds, plainComp x = true) :
    ancChain (ds ++ [c]) = ancChain ds ++ [joinComps (ds ++ [c])] := by
  rw [ancChain, ancChain, ancChainGo_snoc ds c "", joinFold_empty ds hd hp,
    joinComps_snoc ds c hd, joinRel,
    if_neg (str_ne_empty _ (joinComps_data_ne ds hd hp))]

theorem joinComps_length (cs : List String) :
    cs.length ≤ (joinComps cs).length + 1 := by
  induction cs with
  | nil => simp
  | cons c cs ih =>
      cases cs with
      | nil => simp [joinComps]
      | cons e es =>
          rw [joinComps_cons c (e :: es) (by simp), String.length_append,
            String.length_append]
          rw [List.length_cons]
          have : ("/" : String).length = 1 := rfl
          omega

/-- The heart of claim C2's ancestor correspondence: with enough fuel, the
parents loop on a `/`-joined list of plain components produces exactly the
ancestor chain, outermost first. -/
theorem parentsGo_plain (f : Nat) : ∀ (cs : List String) (acc : List String),
    cs ≠ [] → (∀ c ∈ cs, plainComp c = true) → cs.length ≤ f →
    parentsGo f (joinComps cs :: acc) = some (ancChain cs ++ acc) := by
  induction f with
  | zero =>
      intro cs acc h _ hlen
      cases cs with
      | nil => exact absurd rfl h
      | cons c cs => simp at hlen
  | succ f ih =>
      intro cs acc hne hp hlen
      rcases List.eq_nil_or_concat cs with rfl | ⟨ds, c, rfl⟩
      · exact absurd rfl hne
      simp only [List.concat_eq_append] at hne hp hlen ⊢
      rcases eq_or_ne ds [] with rfl | hds
      · obtain ⟨-, hns, -, -, -⟩ := plainComp_spec c (hp c (by simp))
        rw [parentsGo]
        dsimp only [List.headD_cons]
        rw [show joinComps ([] ++ [c]) = c from rfl, splitDir_no_slash c hns,
          if_pos rfl]
        rfl
      · have hp2 : ∀ x ∈ ds, plainComp x = true := fun x hx => hp x (by simp [hx])
        obtain ⟨-, hcns, -, -, -⟩ := plainComp_spec c (hp c (by simp))
        have hjoin : joinComps (ds ++ [c]) = joinComps ds ++ "/" ++ c :=
          joinComps_snoc ds c hds
        have hsplit : splitDir (joinComps (ds ++ [c])) = joinComps ds ++ "/" := by
          rw [hjoin]
          have h1 : joinComps ds ++ "/" ++ c
              = String.mk ((joinComps ds).data ++ '/' :: c.data) :=
            congrArg String.mk (by rw [List.append_assoc]; rfl)
          rw [h1, splitDir_append _ _ hcns]
          rfl
        have hdir_ne : joinComps ds ++ "/" ≠ "" := by
          apply str_ne_empty
          show (joinComps ds).data ++ ['/'] ≠ []
          simp
        rw [parentsGo]
        dsimp only [List.headD_cons]
        rw [hsplit, if_neg hdir_ne, cleanPath_join ds hds hp2]
        rw [ih ds (joinComps (ds ++ [c]) :: acc) hds hp2
          (by rw [List.length_append] at hlen; simp at hlen; omega)]
        rw [ancChain_snoc ds c hds hp2]
        simp

/-- The ancestor list of a relative path of plain components is its
ancestor chain, outermost ancestor first. -/
theorem buildParents_plain (cs : List String) (hne : cs ≠ [])
    (hp : ∀ c ∈ cs, plainComp c = true) :
    buildParents (joinComps cs) = some (ancChain cs) := by
  rw [buildParents, parentsGo_plain ((joinComps cs).length + 1) cs [] hne hp
    (joinComps_length cs), List.append_nil]

/-- The first ancestor whose stat fails (after successes) decides the
error: a broken symlink when it reads as a link and the error is
not-exist, the stat error itself otherwise. -/
theorem checkAncestors_err (o : OSOracle) (p : String) (nE : Bool)
    (rest : List String) (hp : o.stat p = .err nE) :
    ∀ pre, (∀ q ∈ pre, o.stat q = .ok) →
    checkAncestors o (pre ++ p :: rest)
      = .error (if o.readlink p ≠ "" ∧ nE then .brokenSymlink p
                else .statFailure p nE) := by
  intro pre
  induction pre with
  | nil =>
      intro _
      rw [List.nil_append, checkAncestors, hp]
      show (if o.readlink p ≠ "" ∧ nE = true
            then (Except.error (EnumErr.brokenSymlink p) : Except EnumErr Unit)
            else Except.error (EnumErr.statFailure p nE)) = _
      by_cases hb : o.readlink p ≠ "" ∧ nE = true
      · rw [if_pos hb, if_pos hb]
      · rw [if_neg hb, if_neg hb]
  | cons q pre ih =>
      intro hq
      rw [List.cons_append, checkAncestors, hq q (by simp)]
      exact ih fun r hr => hq r (by simp [hr])

/-! ## Concrete fixtures used by witnesses and counterexamples -/

/-- An operating system in which every path stats fine and nothing is a
symbolic link. -/
def osOK : OSOracle := ⟨fun _ => .ok, fun _ => ""⟩

/-- The artifact directory of the end-to-end scenario: one file `out.bin`
with contents `hi` (bytes 104 105). -/
def fsC1 : Fs := .dcons "out.bin" (.file [104, 105]) .dnil

/-- The github context blob of the end-to-end scenario, exactly as the
spec writes it. -/
def ghBlobC1 : String :=
  "\x7b\"repository\":\"o/r\",\"sha\":\"abc123\",\"run_id\":\"7\",\"workflow\":\"CI\"\x7d"

/-- The same blob with an event payload added (the minimal repair). -/
def ghBlobC1e : String :=
  "\x7b\"repository\":\"o/r\",\"sha\":\"abc123\",\"run_id\":\"7\",\"workflow\":\"CI\",\"event\":\x7b\x7d\x7d"

def rnBlobC1 : String := "\x7b\"os\":\"Linux\"\x7d"

/-- A process environment with the hosted-runner signal set. -/
def envHosted : String → String := fun k => if k = "GITHUB_ACTIONS" then "true" else ""

/-- A head element failing the predicate stops `dropWhile` immediately. -/
theorem dropWhile_head_false {p : Char → Bool} (x : Char) (xs ys : List Char)
    (h : p x = false) : ((x :: xs) ++ ys).dropWhile p = (x :: xs) ++ ys := by
  rw [List.cons_append, List.dropWhile_cons, h]
  rfl

/-! ## Claim C2 (broken-symlink ancestry validation) -/

/-- C2, counterexample: for the absolute root `/a` — whose only proper
ancestor `/` stats fine under `osOK` and is no symbolic link, so the
claim as stated predicates a successful enumeration after statting the
ancestors — the code never stats anything: `filepath.Split("/")` returns
directory `"/"`, never `""`, so the parents-building loop of lines
119–127 never exits (`parentsGo_slash` proves that no amount of fuel
reaches the exit); the model reports the divergence instead of a
result. -/
theorem claim_C2_counterexample :
    subjectsRun osOK "/a" (.file [104, 105]) = .error .loopDiverges
  ∧ subjectsRun osOK "/a" (.file [104, 105])
      ≠ .ok (subjectsOf "/a" (.file [104, 105])) :=
  ⟨rfl, fun h => Except.noConfusion h⟩

/-- C2, amended: restricted to roots whose ancestor-list computation
terminates (equivalently: relative roots; absolute roots make the loop of
lines 119–127 spin forever, see the counterexample).
(a) For a root `/`-joined from plain components, the computed parents
list is exactly the root's ancestor chain, outermost ancestor first —
these are the paths statted, in this order, before any walk.
(b) If every listed ancestor stats successfully — in particular when
ancestors are non-dangling symbolic links, since `os.Stat` follows
links — enumeration does not fail and returns the walked subjects.
(c) Before any hashing (the outcome is the same for every file tree),
the first ancestor in outermost-first order whose stat fails decides the
error: the distinct broken-symlink error naming that ancestor when the
path reads as a symbolic link and the stat error is not-exist, and the
stat error itself otherwise. -/
theorem claim_C2_ancestry (o : OSOracle) (root : String) :
    (∀ cs : List String, cs ≠ [] → (∀ c ∈ cs, plainComp c = true) →
        buildParents (joinComps cs) = some (ancChain cs))
  ∧ (∀ ps fs, buildParents root = some ps → (∀ p ∈ ps, o.stat p = .ok) →
        subjectsRun o root fs = .ok (subjectsOf root fs))
  ∧ (∀ ps pre p rest nE fs, buildParents root = some ps →
        ps = pre ++ p :: rest → (∀ q ∈ pre, o.stat q = .ok) →
        o.stat p = .err nE →
        subjectsRun o root fs
          = .error (if o.readlink p ≠ "" ∧ nE = true then .brokenSymlink p
                    else .statFailure p nE)) := by
  refine ⟨fun cs h1 h2 => buildParents_plain cs h1 h2,
    fun ps fs hp hs => subjectsRun_ok o root fs ps hp hs,
    fun ps pre p rest nE fs hp hpre hq hstat => ?_⟩
  subst hpre
  simp only [subjectsRun, hp, checkAncestors_err o p nE rest hstat pre hq]

/-- The oracle of the C2 witness: `a` is a dangling symbolic link (stat
fails with not-exist, readlink answers a target), everything else is
fine. -/
def osLink : OSOracle :=
  ⟨fun p => if p = "a" then .err true else .ok,
   fun p => if p = "a" then "target" else ""⟩

theorem claim_C2_ancestry_witness :
    (buildParents (joinComps ["a", "b"]) = some (ancChain ["a", "b"])
      ∧ ancChain ["a", "b"] = ["a", "a/b"])
  ∧ (buildParents "a/b" = some ["a", "a/b"]
      ∧ osLink.stat "a" = .err true ∧ osLink.readlink "a" = "target")
  ∧ subjectsRun osLink "a/b" (.file [1])
      = .error (if osLink.readlink "a" ≠ "" ∧ true = true
                then .brokenSymlink "a" else .statFailure "a" true)
  ∧ subjectsRun osLink "a/b" (.file [1]) = .error (.brokenSymlink "a") :=
  ⟨⟨(claim_C2_ancestry osLink "a/b").1 ["a", "b"] (by simp) (by decide), rfl⟩,
   ⟨rfl, rfl, rfl⟩,
   (claim_C2_ancestry osLink "a/b").2.2 ["a", "a/b"] [] "a" ["a/b"] true
     (.file [1]) rfl rfl (fun q hq => absurd hq (List.not_mem_nil q)) rfl,
   by rfl⟩

/-! ## Claim C5 (single-file path normalization) -/

/-- C5, counterexample: for the absolute regular-file root `/x/y.bin` —
whose ancestors `/` and `/x` all stat fine under the all-ok oracle, so
the claim as stated demands exactly one subject named `y.bin` — the
program yields no subject at all: `filepath.Split("/")` returns directory
`"/"`, never `""`, so the parents-building loop of lines 119–127 never
exits (`parentsGo_slash` proves that no amount of fuel reaches the
exit); the model reports the divergence instead of a result. -/
theorem claim_C5_counterexample :
    subjectsRun osOK "/x/y.bin" (.file [104, 105]) = .error .loopDiverges
  ∧ (subjectsRun osOK "/x/y.bin" (.file [104, 105])).isOk = false :=
  ⟨rfl, rfl⟩

/-- C5, amended: restricted to roots whose ancestor-list computation
terminates (equivalently: relative roots; an absolute root makes the loop
of lines 119–127 spin forever, see the counterexample).  Enumerating such
a root that is a regular file (and whose ancestors all resolve) yields
exactly one subject, named `filepath.Base root`; and for
every path whose final component is a plain file name (nonempty, not `.`
or `..`, no separator — true of any path naming a regular file), the base
name is exactly that component, so the subject name is never empty and
never the `"."` self marker. -/
theorem claim_C5_single_file (o : OSOracle) (root : String) (c : List Nat)
    (ps : List String) (hp : buildParents root = some ps)
    (hs : ∀ p ∈ ps, o.stat p = .ok) :
    subjectsRun o root (.file c)
      = .ok [Subject.mk (baseName root) [("sha256", sha256Hex c)]]
  ∧ (∀ pre cname, plainComp cname = true → baseName (joinRel pre cname) = cname) := by
  constructor
  · exact (subjectsRun_ok o root (.file c) ps hp hs).trans rfl
  · intro pre cname hplain
    obtain ⟨hne, hns, hne', -, -⟩ := plainComp_spec cname hplain
    have hrevfalse : ∀ x ∈ cname.data.reverse, (x == '/') = false :=
      fun x hx => beq_eq_false_iff_ne.mpr (hns x (List.mem_reverse.mp hx))
    have hrevtrue : ∀ x ∈ cname.data.reverse, (x != '/') = true := by
      intro x hx
      have : x ≠ '/' := hns x (List.mem_reverse.mp hx)
      simpa using this
    by_cases hpre : pre = ""
    · subst hpre
      rw [joinRel, if_pos rfl, baseName, if_neg hne']
      dsimp only []
      rw [dropWhile_all_false cname.data.reverse hrevfalse, List.reverse_reverse,
        if_neg hne, takeWhile_all _ hrevtrue, List.reverse_reverse, if_neg hne]
    · rw [joinRel, if_neg hpre]
      have hpd : (pre ++ "/" ++ cname).data = pre.data ++ '/' :: cname.data := by
        show (pre.data ++ ['/']) ++ cname.data = _
        rw [List.append_assoc]
        rfl
      have hpne : pre ++ "/" ++ cname ≠ "" := append_slash_ne_empty pre cname
      obtain ⟨ch, t, hct⟩ : ∃ ch t, cname.data.reverse = ch :: t := by
        cases h : cname.data.reverse with
        | nil => exact absurd (by simpa using h) hne
        | cons ch t => exact ⟨ch, t, rfl⟩
      have hch : (ch == '/') = false := hrevfalse ch (by rw [hct]; simp)
      rw [baseName, if_neg hpne]
      dsimp only []
      rw [hpd]
      rw [show (pre.data ++ '/' :: cname.data).reverse
          = cname.data.reverse ++ '/' :: pre.data.reverse from by
        rw [List.reverse_append, List.reverse_cons, List.append_assoc]
        rfl]
      rw [hct, dropWhile_head_false ch t _ hch, ← hct]
      rw [if_neg (by simp [hne])]
      rw [List.reverse_reverse, takeWhile_append_all cname.data.reverse hrevtrue]
      rw [show ('/' :: pre.data.reverse).takeWhile (· != '/') = [] from by
        rw [List.takeWhile_cons]
        rfl]
      rw [List.append_nil, List.reverse_reverse, if_neg hne]

theorem claim_C5_single_file_witness :
    (buildParents "x/y.bin" = some ["x", "x/y.bin"]
      ∧ (∀ p ∈ ["x", "x/y.bin"], osOK.stat p = .ok))
  ∧ (subjectsRun osOK "x/y.bin" (.file [104, 105])
      = .ok [Subject.mk (baseName "x/y.bin") [("sha256", sha256Hex [104, 105])]]
    ∧ (∀ pre cname, plainComp cname = true → baseName (joinRel pre cname) = cname))
  ∧ baseName "x/y.bin" = "y.bin" :=
  ⟨⟨rfl, fun _ _ => rfl⟩,
   claim_C5_single_file osOK "x/y.bin" [104, 105] ["x", "x/y.bin"] rfl
     (fun _ _ => rfl),
   rfl⟩

/-! ## Claim C1 (end-to-end scenario) -/

/-- C1, counterexample: on the exact scenario of the claim — artifact
directory with the single file `out.bin`, github context blob
`{"repository":"o/r","sha":"abc123","run_id":"7","workflow":"CI"}` (no
`event` member), runner blob `{"os":"Linux"}`, hosted signal true — the
program produces *no* statement at all: the parsed context's `Event` raw
message is nil, so `json.Unmarshal(context.GitHubContext.Event, &event)`
on line 233 fails with `unexpected end of JSON input` and the process
panics (line 234) before any output is written. -/
theorem claim_C1_counterexample :
    runMain osOK fsC1 "artifacts" ghBlobC1 rnBlobC1 envHosted "2021-01-01T00:00:00Z"
      = .error .eventParse := by
  rfl

/-- C1, amended: the same scenario with the github context blob carrying
any event payload (here `"event":{}` — which every real GitHub Actions
context has) produces a statement with one subject `out.bin` whose digest
is the SHA-256 hex of the file bytes, the sole material
`{uri: git+https://github.com/o/r, digest: {sha1: abc123}}`, the hosted
builder id, entry point `CI` and build invocation id
`https://github.com/o/r/actions/runs/7`. -/
theorem claim_C1_amended :
    ∃ stmt,
      runMain osOK fsC1 "artifacts" ghBlobC1e rnBlobC1 envHosted "2021-01-01T00:00:00Z"
        = .ok stmt
      ∧ stmt.subject = [Subject.mk "out.bin" [("sha256", sha256Hex [104, 105])]]
      ∧ stmt.subject = [Subject.mk "out.bin"
          [("sha256", "8f434346648f6b96df89dda901c5176b10a6d83961dd3c1ac88b59b2dc327aa4")]]
      ∧ stmt.predicate.materials
          = [Item.mk "git+https://github.com/o/r" [("sha1", "abc123")]]
      ∧ stmt.predicate.builder.id
          = "https://github.com/o/r/Attestations/GitHubHostedActions@v1"
      ∧ stmt.predicate.recipe.entryPoint = "CI"
      ∧ stmt.predicate.metadata.buildInvocationId
          = "https://github.com/o/r/actions/runs/7" := by
  refine ⟨_, rfl, ?_, ?_, ?_, ?_, ?_, ?_⟩ <;> rfl

/-! ## Claim C3 (token redaction) -/

/-- Two contexts that agree everywhere except possibly the token. -/
def tokenEquiv (c1 c2 : GitHubContext) : Prop :=
  ({ c1 with token := "" } : GitHubContext) = { c2 with token := "" }

/-- `tokenEquiv` unfolded to the underlying record equality. -/
theorem tokenEquiv_def (c1 c2 : GitHubContext) (h : tokenEquiv c1 c2) :
    ({ c1 with token := "" } : GitHubContext) = { c2 with token := "" } := h

/-- `tokenEquiv` lifted to unmarshalling results: both fail, or both
succeed with token-equivalent contexts. -/
def optionTokenEquiv : Option GitHubContext → Option GitHubContext → Prop
  | some a, some b => tokenEquiv a b
  | none, none => True
  | _, _ => False

theorem optionTokenEquiv_some_some (a b : GitHubContext) :
    optionTokenEquiv (some a) (some b) = tokenEquiv a b := rfl

theorem optionTokenEquiv_none_none : optionTokenEquiv none none = True := rfl

/-- Field-wise characterization of `tokenEquiv`: all fields but the token
agree. -/
theorem tokenEquiv_iff (c1 c2 : GitHubContext) :
    tokenEquiv c1 c2 ↔
      (c1.action = c2.action ∧ c1.actionPath = c2.actionPath
        ∧ c1.actor = c2.actor ∧ c1.baseRef = c2.baseRef ∧ c1.event = c2.event
        ∧ c1.eventName = c2.eventName ∧ c1.eventPath = c2.eventPath
        ∧ c1.headRef = c2.headRef ∧ c1.job = c2.job ∧ c1.ref = c2.ref
        ∧ c1.repository = c2.repository ∧ c1.repositoryOwner = c2.repositoryOwner
        ∧ c1.runId = c2.runId ∧ c1.runNumber = c2.runNumber ∧ c1.sha = c2.sha
        ∧ c1.workflow = c2.workflow ∧ c1.workspace = c2.workspace) := by
  cases c1
  cases c2
  simp [tokenEquiv]

/-- A string-field assignment preserves token equivalence whenever the two
updates do. -/
theorem setStr_tokenEquiv (v : Json) (c1 c2 : GitHubContext) (hc : tokenEquiv c1 c2)
    (upd1 upd2 : String → GitHubContext)
    (hupd : ∀ s, ({ upd1 s with token := "" } : GitHubContext)
        = { upd2 s with token := "" }) :
    optionTokenEquiv
      (match v with | .str s => some (upd1 s) | .null => some c1 | _ => none)
      (match v with | .str s => some (upd2 s) | .null => some c2 | _ => none) := by
  cases v <;> first | trivial | exact hc | exact hupd _

/-- One decoder assignment preserves token equivalence: for the same key
and value, both assignments fail together or succeed with
token-equivalent results (a type error depends only on the key and the
value, never on the accumulated context). -/
theorem ghAssign_tokenEquiv (k : String) (v : Json) (c1 c2 : GitHubContext)
    (hc : tokenEquiv c1 c2) :
    optionTokenEquiv (ghAssign c1 k v) (ghAssign c2 k v) := by
  unfold ghAssign
  dsimp only []
  by_cases h0 : k = "action"
  · rw [if_pos h0, if_pos h0]
    exact setStr_tokenEquiv v c1 c2 hc
      (fun s => { c1 with action := s }) (fun s => { c2 with action := s })
      (fun s => congrArg (fun c => { c with action := s }) (tokenEquiv_def c1 c2 hc))
  rw [if_neg h0, if_neg h0]
  by_cases h1 : k = "action_path"
  · rw [if_pos h1, if_pos h1]
    exact setStr_tokenEquiv v c1 c2 hc
      (fun s => { c1 with actionPath := s }) (fun s => { c2 with actionPath := s })
      (fun s => congrArg (fun c => { c with actionPath := s }) (tokenEquiv_def c1 c2 hc))
  rw [if_neg h1, if_neg h1]
  by_cases h2 : k = "actor"
  · rw [if_pos h2, if_pos h2]
    exact setStr_tokenEquiv v c1 c2 hc
      (fun s => { c1 with actor := s }) (fun s => { c2 with actor := s })
      (fun s => congrArg (fun c => { c with actor := s }) (tokenEquiv_def c1 c2 hc))
  rw [if_neg h2, if_neg h2]
  by_cases h3 : k = "base_ref"
  · rw [if_pos h3, if_pos h3]
    exact setStr_tokenEquiv v c1 c2 hc
      (fun s => { c1 with baseRef := s }) (fun s => { c2 with baseRef := s })
      (fun s => congrArg (fun c => { c with baseRef := s }) (tokenEquiv_def c1 c2 hc))
  rw [if_neg h3, if_neg h3]
  by_cases h4 : k = "event"
  · rw [if_pos h4, if_pos h4]
    exact congrArg (fun c => { c with event := some v }) (tokenEquiv_def c1 c2 hc)
  rw [if_neg h4, if_neg h4]
  by_cases h5 : k = "event_name"
  · rw [if_pos h5, if_pos h5]
    exact setStr_tokenEquiv v c1 c2 hc
      (fun s => { c1 with eventName := s }) (fun s => { c2 with eventName := s })
      (fun s => congrArg (fun c => { c with eventName := s }) (tokenEquiv_def c1 c2 hc))
  rw [if_neg h5, if_neg h5]
  by_cases h6 : k = "event_path"
  · rw [if_pos h6, if_pos h6]
    exact setStr_tokenEquiv v c1 c2 hc
      (fun s => { c1 with eventPath := s }) (fun s => { c2 with eventPath := s })
      (fun s => congrArg (fun c => { c with eventPath := s }) (tokenEquiv_def c1 c2 hc))
  rw [if_neg h6, if_neg h6]
  by_cases h7 : k = "head_ref"
  · rw [if_pos h7, if_pos h7]
    exact setStr_tokenEquiv v c1 c2 hc
      (fun s => { c1 with headRef := s }) (fun s => { c2 with headRef := s })
      (fun s => congrArg (fun c => { c with headRef := s }) (tokenEquiv_def c1 c2 hc))
  rw [if_neg h7, if_neg h7]
  by_cases h8 : k = "job"
  · rw [if_pos h8, if_pos h8]
    exact setStr_tokenEquiv v c1 c2 hc
      (fun s => { c1 with job := s }) (fun s => { c2 with job := s })
      (fun s => congrArg (fun c => { c with job := s }) (tokenEquiv_def c1 c2 hc))
  rw [if_neg h8, if_neg h8]
  by_cases h9 : k = "ref"
  · rw [if_pos h9, if_pos h9]
    exact setStr_tokenEquiv v c1 c2 hc
      (fun s => { c1 with ref := s }) (fun s => { c2 with ref := s })
      (fun s => congrArg (fun c => { c with ref := s }) (tokenEquiv_def c1 c2 hc))
  rw [if_neg h9, if_neg h9]
  by_cases h10 : k = "repository"
  · rw [if_pos h10, if_pos h10]
    exact setStr_tokenEquiv v c1 c2 hc
      (fun s => { c1 with repository := s }) (fun s => { c2 with repository := s })
      (fun s => congrArg (fun c => { c with repository := s }) (tokenEquiv_def c1 c2 hc))
  rw [if_neg h10, if_neg h10]
  by_cases h11 : k = "repository_owner"
  · rw [if_pos h11, if_pos h11]
    exact setStr_tokenEquiv v c1 c2 hc
      (fun s => { c1 with repositoryOwner := s }) (fun s => { c2 with repositoryOwner := s })
      (fun s => congrArg (fun c => { c with repositoryOwner := s }) (tokenEquiv_def c1 c2 hc))
  rw [if_neg h11, if_neg h11]
  by_cases h12 : k = "run_id"
  · rw [if_pos h12, if_pos h12]
    exact setStr_tokenEquiv v c1 c2 hc
      (fun s => { c1 with runId := s }) (fun s => { c2 with runId := s })
      (fun s => congrArg (fun c => { c with runId := s }) (tokenEquiv_def c1 c2 hc))
  rw [if_neg h12, if_neg h12]
  by_cases h13 : k = "run_number"
  · rw [if_pos h13, if_pos h13]
    exact setStr_tokenEquiv v c1 c2 hc
      (fun s => { c1 with runNumber := s }) (fun s => { c2 with runNumber := s })
      (fun s => congrArg (fun c => { c with runNumber := s }) (tokenEquiv_def c1 c2 hc))
  rw [if_neg h13, if_neg h13]
  by_cases h14 : k = "sha"
  · rw [if_pos h14, if_pos h14]
    exact setStr_tokenEquiv v c1 c2 hc
      (fun s => { c1 with sha := s }) (fun s => { c2 with sha := s })
      (fun s => congrArg (fun c => { c with sha := s }) (tokenEquiv_def c1 c2 hc))
  rw [if_neg h14, if_neg h14]
  by_cases h15 : k = "token"
  · rw [if_pos h15, if_pos h15]
    exact setStr_tokenEquiv v c1 c2 hc
      (fun s => { c1 with token := s }) (fun s => { c2 with token := s })
      (fun s => tokenEquiv_def c1 c2 hc)
  rw [if_neg h15, if_neg h15]
  by_cases h16 : k = "workflow"
  · rw [if_pos h16, if_pos h16]
    exact setStr_tokenEquiv v c1 c2 hc
      (fun s => { c1 with workflow := s }) (fun s => { c2 with workflow := s })
      (fun s => congrArg (fun c => { c with workflow := s }) (tokenEquiv_def c1 c2 hc))
  rw [if_neg h16, if_neg h16]
  by_cases h17 : k = "workspace"
  · rw [if_pos h17, if_pos h17]
    exact setStr_tokenEquiv v c1 c2 hc
      (fun s => { c1 with workspace := s }) (fun s => { c2 with workspace := s })
      (fun s => congrArg (fun c => { c with workspace := s }) (tokenEquiv_def c1 c2 hc))
  rw [if_neg h17, if_neg h17]
  exact hc

/-- Assigning the token key a string value always succeeds and sets only
the token. -/
theorem ghAssign_token (c : GitHubContext) (s : String) :
    ghAssign c "token" (.str s) = some { c with token := s } := rfl

/-- Replace the value of every member named `k`. -/
def setField (fields : List (String × Json)) (k : String) (v : Json) :
    List (String × Json) :=
  fields.map fun kv => if kv.1 == k then (kv.1, v) else kv

/-- Decoding two member lists that differ only in the value of the token
members (both strings) yields equivalent results from equivalent
accumulators. -/
theorem foldAssign_setToken (t1 t2 : String) (fields : List (String × Json)) :
    ∀ c1 c2, tokenEquiv c1 c2 →
    optionTokenEquiv
      ((setField fields "token" (.str t1)).foldlM
        (fun c kv => ghAssign c kv.1 kv.2) c1)
      ((setField fields "token" (.str t2)).foldlM
        (fun c kv => ghAssign c kv.1 kv.2) c2) := by
  induction fields with
  | nil => intro c1 c2 hc; exact hc
  | cons kv rest ih =>
      intro c1 c2 hc
      obtain ⟨k0, v0⟩ := kv
      by_cases hk : k0 = "token"
      · have hkb : (k0 == "token") = true := beq_iff_eq.mpr hk
        have hset : ∀ t : String,
            setField ((k0, v0) :: rest) "token" (.str t)
              = (k0, Json.str t) :: setField rest "token" (.str t) := by
          intro t
          show List.map _ ((k0, v0) :: rest) = _
          rw [List.map_cons]
          rw [show ((if (k0 == "token") = true then (k0, Json.str t) else (k0, v0)))
              = (k0, Json.str t) from if_pos hkb]
          rfl
        have hassign : ∀ (c : GitHubContext) (t : String),
            ghAssign c k0 (.str t) = some { c with token := t } := by
          intro c t; rw [hk]; rfl
        rw [hset t1, hset t2, List.foldlM_cons, List.foldlM_cons,
          hassign c1 t1, hassign c2 t2]
        exact ih { c1 with token := t1 } { c2 with token := t2 } hc
      · have hkb : (k0 == "token") = false := beq_eq_false_iff_ne.mpr hk
        have hset : ∀ t : String,
            setField ((k0, v0) :: rest) "token" (.str t)
              = (k0, v0) :: setField rest "token" (.str t) := by
          intro t
          show List.map _ ((k0, v0) :: rest) = _
          rw [List.map_cons]
          rw [show ((if (k0 == "token") = true then (k0, Json.str t) else (k0, v0)))
              = (k0, v0) from if_neg (by rw [hkb]; exact Bool.false_ne_true)]
          rfl
        rw [hset t1, hset t2, List.foldlM_cons, List.foldlM_cons]
        have h12 := ghAssign_tokenEquiv k0 v0 c1 c2 hc
        cases hA : ghAssign c1 k0 v0 <;> cases hB : ghAssign c2 k0 v0 <;>
          rw [hA, hB] at h12
        · trivial
        · exact False.elim h12
        · exact False.elim h12
        · exact ih _ _ h12

/-- `buildStatement` reads only token-independent fields of the context. -/
theorem buildStatement_tokenEquiv (subs : List Subject) (g1 g2 : GitHubContext)
    (ev : AnyEvent) (hosted : Bool) (now : String) (h : tokenEquiv g1 g2) :
    buildStatement subs g1 ev hosted now = buildStatement subs g2 ev hosted now := by
  rw [tokenEquiv_iff] at h
  obtain ⟨-, -, -, -, -, -, -, -, -, -, hrep, -, hrid, -, hsha, hwf, -⟩ := h
  unfold buildStatement
  rw [hrep, hrid, hsha, hwf]

/-- C3: two runs whose github context blobs are identical except for the
value of the token member (a string in both) produce identical results,
and hence identical serialized output documents: the token value never
influences the output.  (The line-225 redaction blanks the token before
anything context-derived is used; the `gh` copy of line 223 still holds
the token but only its repository, run id, workflow and SHA fields are
read.) -/
theorem claim_C3_token_redaction (o : OSOracle) (fs : Fs)
    (root rnBlob : String) (env : String → String) (now : String)
    (fields : List (String × Json)) (t1 t2 : String) (b1 b2 : String)
    (h1 : jsonParse b1 = some (.obj (setField fields "token" (.str t1))))
    (h2 : jsonParse b2 = some (.obj (setField fields "token" (.str t2)))) :
    runMain o fs root b1 rnBlob env now = runMain o fs root b2 rnBlob env now
  ∧ (runMain o fs root b1 rnBlob env now).map stmtToJson
      = (runMain o fs root b2 rnBlob env now).map stmtToJson := by
  have hinv : optionTokenEquiv (parsedGitHub b1) (parsedGitHub b2) := by
    rw [parsedGitHub, parsedGitHub, h1, h2]
    show optionTokenEquiv
      ((setField fields "token" (.str t1)).foldlM
        (fun c kv => ghAssign c kv.1 kv.2) {})
      ((setField fields "token" (.str t2)).foldlM
        (fun c kv => ghAssign c kv.1 kv.2) {})
    exact foldAssign_setToken t1 t2 fields {} {} rfl
  have main : runMain o fs root b1 rnBlob env now
      = runMain o fs root b2 rnBlob env now := by
    unfold runMain
    cases hs : subjectsRun o root fs with
    | error e => rfl
    | ok subs =>
        cases hp1 : parsedGitHub b1 with
        | none =>
            cases hp2 : parsedGitHub b2 with
            | none => rfl
            | some g2 =>
                rw [hp1, hp2] at hinv
                exact False.elim hinv
        | some g1 =>
            cases hp2 : parsedGitHub b2 with
            | none =>
                rw [hp1, hp2] at hinv
                exact False.elim hinv
            | some g2 =>
                rw [hp1, hp2] at hinv
                cases hr : parsedRunner rnBlob with
                | none => rfl
                | some rn =>
                    dsimp only []
                    have htok : tokenEquiv g1 g2 := hinv
                    have hev : g1.event = g2.event :=
                      ((tokenEquiv_iff g1 g2).mp htok).2.2.2.2.1
                    rw [hev]
                    cases he : unmarshalEvent g2.event with
                    | none => rfl
                    | some ev =>
                        dsimp only []
                        exact congrArg Except.ok
                          (buildStatement_tokenEquiv subs g1 g2 ev
                            (env "GITHUB_ACTIONS" == "true") now htok)
  exact ⟨main, by rw [main]⟩

/-- C3 witness: the scenario blob with token `SECRET1` versus `SECRET2`. -/
def ghBlobTok1 : String :=
  "\x7b\"repository\":\"o/r\",\"sha\":\"abc123\",\"run_id\":\"7\",\"workflow\":\"CI\",\"event\":\x7b\x7d,\"token\":\"SECRET1\"\x7d"

def ghBlobTok2 : String :=
  "\x7b\"repository\":\"o/r\",\"sha\":\"abc123\",\"run_id\":\"7\",\"workflow\":\"CI\",\"event\":\x7b\x7d,\"token\":\"SECRET2\"\x7d"

/-- The common member list of the two token-redaction blobs, before the
token value is plugged in. -/
def ghFieldsTok : List (String × Json) :=
  [("repository", .str "o/r"), ("sha", .str "abc123"), ("run_id", .str "7"),
   ("workflow", .str "CI"), ("event", .obj []), ("token", .str "IGNORED")]

theorem claim_C3_token_redaction_witness :
    (jsonParse ghBlobTok1 = some (.obj (setField ghFieldsTok "token" (.str "SECRET1")))
      ∧ jsonParse ghBlobTok2 = some (.obj (setField ghFieldsTok "token" (.str "SECRET2"))))
  ∧ runMain osOK fsC1 "artifacts" ghBlobTok1 rnBlobC1 envHosted "T"
      = runMain osOK fsC1 "artifacts" ghBlobTok2 rnBlobC1 envHosted "T" :=
  ⟨⟨rfl, rfl⟩,
    (claim_C3_token_redaction osOK fsC1 "artifacts" rnBlobC1 envHosted "T"
      ghFieldsTok "SECRET1" "SECRET2" ghBlobTok1 ghBlobTok2 rfl rfl).1⟩

/-! ## Claim C4 (directory enumeration completeness and order) -/

/-- The C4 tree: a directory with a nested subdirectory and three regular
files, listed out of order. -/
def fsC4 : Fs :=
  .dcons "z.txt" (.file [1])
    (.dcons "a" (.dcons "c.bin" (.file [2]) (.dcons "b.bin" (.file [3]) .dnil))
      .dnil)

/-- C4, counterexample: for the absolute directory root `/art` — a
well-formed directory of exactly three regular files, under the all-ok
oracle, so the claim as stated demands exactly three subjects — the
program yields no subject list at all: `filepath.Split("/")` returns
directory `"/"`, never `""`, so the parents-building loop of lines
119–127 never exits (`parentsGo_slash` proves that no amount of fuel
reaches the exit); the model reports the divergence instead of a
result. -/
theorem claim_C4_counterexample :
    (wfF false fsC4 = true ∧ fileCount fsC4 = 3)
  ∧ subjectsRun osOK "/art" fsC4 = .error .loopDiverges
  ∧ (subjectsRun osOK "/art" fsC4).isOk = false :=
  ⟨⟨rfl, rfl⟩, rfl, rfl⟩

/-- C4, amended: restricted to roots whose ancestor-list computation
terminates and whose ancestors all stat successfully (an absolute root
makes the loop of lines 119–127 spin forever, see the counterexample).
Enumerating such a well-formed directory root succeeds and yields exactly
`fileCount` subjects (one per regular file, at any nesting depth); the
names are, in order, the spec-side pre-order lexicographic listing of the
relative slash-joined file paths (directories are never emitted by
`specFiles`, so no directory appears as a subject); and as a multiset the
names are exactly the file paths of the tree in its natural listing
order. -/
theorem claim_C4_enumeration (o : OSOracle) (root : String) (d : Fs)
    (ps : List String) (hp : buildParents root = some ps)
    (hst : ∀ p ∈ ps, o.stat p = .ok) (hd : wfF false d = true) :
    ∃ subs, subjectsRun o root d = .ok subs
      ∧ subs.map Subject.name = (specFiles "" (sortFsAll d)).map Prod.fst
      ∧ subs.length = fileCount d
      ∧ (subs.map Subject.name).Perm ((specFiles "" d).map Prod.fst) := by
  have hw : (subjectsOf root d).map Subject.name = (walkFiles root d).map Prod.fst := by
    rw [subjectsOf, List.map_map]; rfl
  have hs := walkFiles_spec root d hd
  refine ⟨subjectsOf root d, subjectsRun_ok o root d ps hp hst,
    by rw [hw, hs], ?_, ?_⟩
  · rw [subjectsOf, List.length_map, hs, length_specFiles, fileCount_sortFsAll]
  · rw [hw, hs]
    exact (specFiles_sortFsAll_perm "" d).map Prod.fst

/-- Successful-run inversion: a produced statement is `buildStatement` of
a successful enumeration, a parsed github context, a parsed runner context
and a parsed event payload. -/
theorem runMain_ok_inv (o : OSOracle) (fs : Fs) (root ghBlob rnBlob : String)
    (env : String → String) (now : String) (stmt : Statement)
    (hrun : runMain o fs root ghBlob rnBlob env now = .ok stmt) :
    ∃ subs gh ev, subjectsRun o root fs = .ok subs
      ∧ parsedGitHub ghBlob = some gh
      ∧ (∃ rn, parsedRunner rnBlob = some rn)
      ∧ unmarshalEvent gh.event = some ev
      ∧ stmt = buildStatement subs gh ev (env "GITHUB_ACTIONS" == "true") now := by
  unfold runMain at hrun
  split at hrun
  · exact absurd hrun (by simp)
  next subs hsubs =>
    split at hrun
    · exact absurd hrun (by simp)
    next gh hgh =>
      split at hrun
      · exact absurd hrun (by simp)
      next rn hrn =>
        dsimp only [] at hrun
        split at hrun
        · exact absurd hrun (by simp)
        next ev hev =>
          refine ⟨subs, gh, ev, hsubs, hgh, ⟨rn, hrn⟩, hev, ?_⟩
          cases hrun
          rfl

/-! ## Claim C6 (hash determinism and definition) -/

theorem beBytes_length (k v : Nat) : (beBytes k v).length = k := by
  induction k generalizing v with
  | zero => rfl
  | succ k ih => simp [beBytes, ih]

theorem beBytes_lt (k v : Nat) : ∀ b ∈ beBytes k v, b < 256 := by
  induction k generalizing v with
  | zero => intro b hb; simp [beBytes] at hb
  | succ k ih =>
      intro b hb
      rw [beBytes, List.mem_append] at hb
      rcases hb with hb | hb
      · exact ih _ b hb
      · simp at hb
        omega

theorem sha256Round_length (st : List Nat) (kw : Nat × Nat) :
    (sha256Round st kw).length = st.length := by
  unfold sha256Round
  split <;> rfl

theorem foldl_round_length (l : List (Nat × Nat)) :
    ∀ st : List Nat, (l.foldl sha256Round st).length = st.length := by
  induction l with
  | nil => intro st; rfl
  | cons kw rest ih =>
      intro st
      rw [List.foldl_cons, ih, sha256Round_length]

theorem sha256Compress_length (h chunk : List Nat) :
    (sha256Compress h chunk).length = h.length := by
  simp [sha256Compress, List.length_zipWith, foldl_round_length]

theorem foldl_compress_length (bs : List (List Nat)) :
    ∀ h : List Nat, (bs.foldl sha256Compress h).length = h.length := by
  induction bs with
  | nil => intro h; rfl
  | cons b rest ih =>
      intro h
      rw [List.foldl_cons, ih, sha256Compress_length]

theorem flatMap_const_length {α : Type} (f : α → List Nat) (k : Nat)
    (hf : ∀ x, (f x).length = k) : ∀ l : List α, (l.flatMap f).length = k * l.length := by
  intro l
  induction l with
  | nil => simp
  | cons x rest ih =>
      rw [List.flatMap_cons, List.length_append, hf, ih, List.length_cons]
      ring

theorem sha256Bytes_length (msg : List Nat) : (sha256Bytes msg).length = 32 := by
  rw [sha256Bytes, flatMap_const_length (beBytes 4) 4 (fun v => beBytes_length 4 v),
    foldl_compress_length]
  rfl

theorem flatMapChar_const_length (f : Nat → List Char) (k : Nat)
    (hf : ∀ x, (f x).length = k) :
    ∀ l : List Nat, (l.flatMap f).length = k * l.length := by
  intro l
  induction l with
  | nil => simp
  | cons x rest ih =>
      rw [List.flatMap_cons, List.length_append, hf, ih, List.length_cons]
      ring

theorem sha256Hex_length (msg : List Nat) : (sha256Hex msg).length = 64 := by
  show ((sha256Bytes msg).flatMap byteHex).length = 64
  rw [flatMapChar_const_length byteHex 2 (fun _ => rfl), sha256Bytes_length]

theorem hexDigit_mem : ∀ m, m < 16 → hexDigit m ∈ ("0123456789abcdef").data := by
  decide

theorem byteHex_mem (b : Nat) (hb : b < 256) :
    ∀ ch ∈ byteHex b, ch ∈ ("0123456789abcdef").data := by
  intro ch hch
  rw [byteHex] at hch
  simp at hch
  rcases hch with h | h <;> subst h
  · exact hexDigit_mem _ (by omega)
  · exact hexDigit_mem _ (by omega)

theorem sha256Bytes_lt (msg : List Nat) : ∀ b ∈ sha256Bytes msg, b < 256 := by
  intro b hb
  rw [sha256Bytes, List.mem_flatMap] at hb
  obtain ⟨w, _, hw⟩ := hb
  exact beBytes_lt 4 w b hw

/-- C6: every emitted subject's digest set is the singleton mapping
`sha256` to `sha256Hex` of that file's full contents (determinism is
immediate: `sha256Hex` is a function of the contents alone); `sha256Hex`
is a genuine lowercase-hexadecimal encoding of a 256-bit SHA-256 digest:
it matches FIPS 180-4's `abc` test vector, always has 64 characters, and
uses only the lowercase hex alphabet. -/
theorem claim_C6_digest (root : String) (fs : Fs) (s : Subject)
    (hmem : s ∈ subjectsOf root fs) :
    (∃ p ∈ walkFiles root fs, s.name = p.1 ∧ s.digest = [("sha256", sha256Hex p.2)])
  ∧ sha256Hex [97, 98, 99]
      = "ba7816bf8f01cfea414140de5dae2223b00361a396177a9cb410ff61f20015ad"
  ∧ (∀ msg, (sha256Hex msg).length = 64)
  ∧ (∀ msg, ∀ ch ∈ (sha256Hex msg).data, ch ∈ ("0123456789abcdef").data) := by
  refine ⟨?_, by decide, sha256Hex_length, ?_⟩
  · rw [subjectsOf, List.mem_map] at hmem
    obtain ⟨p, hp, hs⟩ := hmem
    exact ⟨p, hp, by rw [← hs]; exact ⟨rfl, rfl⟩⟩
  · intro msg ch hch
    have : ch ∈ (sha256Bytes msg).flatMap byteHex := hch
    rw [List.mem_flatMap] at this
    obtain ⟨b, hb, hcb⟩ := this
    exact byteHex_mem b (sha256Bytes_lt msg b hb) ch hcb

theorem claim_C6_digest_witness :
    (Subject.mk "out.bin"
        [("sha256", "8f434346648f6b96df89dda901c5176b10a6d83961dd3c1ac88b59b2dc327aa4")]
      ∈ subjectsOf "art" fsC1)
  ∧ (∃ p ∈ walkFiles "art" fsC1,
        (Subject.mk "out.bin"
          [("sha256",
            "8f434346648f6b96df89dda901c5176b10a6d83961dd3c1ac88b59b2dc327aa4")]).name
          = p.1
      ∧ (Subject.mk "out.bin"
          [("sha256",
            "8f434346648f6b96df89dda901c5176b10a6d83961dd3c1ac88b59b2dc327aa4")]).digest
          = [("sha256", sha256Hex p.2)]) :=
  ⟨by decide,
    (claim_C6_digest "art" fsC1 _ (by decide)).1⟩

/-! ## Claim C7 (builder-identity selection) -/

/-- C7: in every successful run, the builder id is the repository URI
`https://github.com/<repository>` with the hosted-actions suffix when the
`GITHUB_ACTIONS` environment signal is `true`, and with the self-hosted
suffix otherwise. -/
theorem claim_C7_builder_identity (o : OSOracle) (fs : Fs)
    (root ghBlob rnBlob : String) (env : String → String) (now : String)
    (stmt : Statement) (gh : GitHubContext)
    (hrun : runMain o fs root ghBlob rnBlob env now = .ok stmt)
    (hgh : parsedGitHub ghBlob = some gh) :
    stmt.predicate.builder.id =
      if env "GITHUB_ACTIONS" = "true"
      then "https://github.com/" ++ gh.repository ++ GitHubHostedIdSuffix
      else "https://github.com/" ++ gh.repository ++ SelfHostedIdSuffix := by
  obtain ⟨subs, gh2, ev, _, hgh2, _, _, hstmt⟩ :=
    runMain_ok_inv o fs root ghBlob rnBlob env now stmt hrun
  rw [hgh] at hgh2
  cases hgh2
  subst hstmt
  by_cases h : env "GITHUB_ACTIONS" = "true" <;>
    simp [buildStatement, h, String.append_assoc]

theorem claim_C7_builder_identity_witness :
    runMain osOK fsC1 "artifacts" ghBlobC1e rnBlobC1 envHosted "T"
        = .ok (buildStatement (subjectsOf "artifacts" fsC1)
            (GitHubContext.mk "" "" "" "" (some (.obj [])) "" "" "" "" "" "o/r" ""
              "7" "" "abc123" "" "CI" "") (AnyEvent.mk none) true "T")
  ∧ (buildStatement (subjectsOf "artifacts" fsC1)
        (GitHubContext.mk "" "" "" "" (some (.obj [])) "" "" "" "" "" "o/r" ""
          "7" "" "abc123" "" "CI" "") (AnyEvent.mk none) true "T").predicate.builder.id
      = if envHosted "GITHUB_ACTIONS" = "true"
        then "https://github.com/" ++ "o/r" ++ GitHubHostedIdSuffix
        else "https://github.com/" ++ "o/r" ++ SelfHostedIdSuffix :=
  ⟨rfl,
    claim_C7_builder_identity osOK fsC1 "artifacts" ghBlobC1e rnBlobC1 envHosted "T"
      _ _ rfl rfl⟩

/-! ## Claim C8 (context-parse failure is fatal) -/

/-- C8: if either context blob is malformed JSON, the run produces no
statement (and hence no output document): the result is never `ok`.  (When
the github blob is malformed the process panics at line 218, when the
runner blob is malformed at line 221; if enumeration already failed the
process exited at line 195 — in every case nothing is produced.) -/
theorem claim_C8_parse_fatal (o : OSOracle) (fs : Fs)
    (root ghBlob rnBlob : String) (env : String → String) (now : String)
    (hbad : jsonParse ghBlob = none ∨ jsonParse rnBlob = none) :
    (runMain o fs root ghBlob rnBlob env now).isOk = false := by
  unfold runMain
  split
  · rfl
  · split
    · rfl
    next gh hgh =>
      rcases hbad with hbad | hbad
      · rw [parsedGitHub, hbad] at hgh
        exact absurd hgh (by simp)
      · split
        · rfl
        next rn hrn =>
          rw [parsedRunner, hbad] at hrn
          exact absurd hrn (by simp)

theorem claim_C8_parse_fatal_witness :
    (jsonParse "not json" = none ∨ jsonParse rnBlobC1 = none)
  ∧ (runMain osOK fsC1 "artifacts" "not json" rnBlobC1 envHosted "T").isOk = false :=
  ⟨Or.inl rfl,
    claim_C8_parse_fatal osOK fsC1 "artifacts" "not json" rnBlobC1 envHosted "T"
      (Or.inl rfl)⟩

/-! ## Claim C9 (sole material) -/

/-- C9: every successful run records exactly one material, with uri
`git+https://github.com/<repository>` and the singleton digest map
`{sha1: <commit SHA>}`, both taken from the parsed github context. -/
theorem claim_C9_sole_material (o : OSOracle) (fs : Fs)
    (root ghBlob rnBlob : String) (env : String → String) (now : String)
    (stmt : Statement) (gh : GitHubContext)
    (hrun : runMain o fs root ghBlob rnBlob env now = .ok stmt)
    (hgh : parsedGitHub ghBlob = some gh) :
    stmt.predicate.materials
      = [Item.mk ("git+" ++ ("https://github.com/" ++ gh.repository))
          [("sha1", gh.sha)]] := by
  obtain ⟨subs, gh2, ev, _, hgh2, _, _, hstmt⟩ :=
    runMain_ok_inv o fs root ghBlob rnBlob env now stmt hrun
  rw [hgh] at hgh2
  cases hgh2
  subst hstmt
  rfl

theorem claim_C9_sole_material_witness :
    runMain osOK fsC1 "artifacts" ghBlobC1e rnBlobC1 envHosted "T"
        = .ok (buildStatement (subjectsOf "artifacts" fsC1)
            (GitHubContext.mk "" "" "" "" (some (.obj [])) "" "" "" "" "" "o/r" ""
              "7" "" "abc123" "" "CI" "") (AnyEvent.mk none) true "T")
  ∧ (buildStatement (subjectsOf "artifacts" fsC1)
        (GitHubContext.mk "" "" "" "" (some (.obj [])) "" "" "" "" "" "o/r" ""
          "7" "" "abc123" "" "CI" "") (AnyEvent.mk none) true "T").predicate.materials
      = [Item.mk ("git+" ++ ("https://github.com/" ++ "o/r")) [("sha1", "abc123")]] :=
  ⟨rfl,
    claim_C9_sole_material osOK fsC1 "artifacts" ghBlobC1e rnBlobC1 envHosted "T"
      _ _ rfl rfl⟩

/-! ## Claim C10 (runner context never influences the output) -/

/-- A member lookup along a path of keys in a JSON document. -/
def jGet : Json → List String → Option Json
  | j, [] => some j
  | .obj fields, k :: ks =>
      match fields.find? (fun kv => kv.1 == k) with
      | some kv => jGet kv.2 ks
      | none => none
  | _, _ => none

/-- C10: the runner context is parsed but never used.  Two runs that
differ only in the runner-context blob — both of which parse and
unmarshal successfully — produce identical results (hence identical
serialized documents); and in every successful run the statement's
`recipe.environment` is the nil pointer, serialized as JSON `null`. -/
theorem claim_C10_runner_noninterference (o : OSOracle) (fs : Fs)
    (root ghBlob rn1 rn2 : String) (env : String → String) (now : String)
    (h1 : ∃ r, parsedRunner rn1 = some r) (h2 : ∃ r, parsedRunner rn2 = some r) :
    (runMain o fs root ghBlob rn1 env now = runMain o fs root ghBlob rn2 env now)
  ∧ (∀ stmt, runMain o fs root ghBlob rn1 env now = .ok stmt →
      stmt.predicate.recipe.environment = none
      ∧ jGet (stmtToJson stmt) ["predicate", "recipe", "environment"]
          = some .null) := by
  obtain ⟨r1, h1⟩ := h1
  obtain ⟨r2, h2⟩ := h2
  constructor
  · unfold runMain
    split
    · rfl
    · split
      · rfl
      · rw [h1, h2]
  · intro stmt hrun
    obtain ⟨subs, gh, ev, _, _, _, _, hstmt⟩ :=
      runMain_ok_inv o fs root ghBlob rn1 env now stmt hrun
    subst hstmt
    exact ⟨rfl, rfl⟩

theorem claim_C10_runner_noninterference_witness :
    ((∃ r, parsedRunner rnBlobC1 = some r)
      ∧ (∃ r, parsedRunner "\x7b\"os\":\"mac\",\"temp\":\"/t\"\x7d" = some r))
  ∧ runMain osOK fsC1 "artifacts" ghBlobC1e rnBlobC1 envHosted "T"
      = runMain osOK fsC1 "artifacts" ghBlobC1e "\x7b\"os\":\"mac\",\"temp\":\"/t\"\x7d"
          envHosted "T" :=
  ⟨⟨⟨RunnerContext.mk "Linux" "" "", rfl⟩, ⟨RunnerContext.mk "mac" "/t" "", rfl⟩⟩,
    (claim_C10_runner_noninterference osOK fsC1 "artifacts" ghBlobC1e rnBlobC1
      "\x7b\"os\":\"mac\",\"temp\":\"/t\"\x7d" envHosted "T"
      ⟨RunnerContext.mk "Linux" "" "", rfl⟩ ⟨RunnerContext.mk "mac" "/t" "", rfl⟩).1⟩

theorem claim_C4_enumeration_witness :
    (buildParents "art" = some ["art"]
      ∧ (∀ p ∈ ["art"], osOK.stat p = .ok)
      ∧ wfF false fsC4 = true)
  ∧ (∃ subs, subjectsRun osOK "art" fsC4 = .ok subs
      ∧ subs.map Subject.name = (specFiles "" (sortFsAll fsC4)).map Prod.fst
      ∧ subs.length = fileCount fsC4
      ∧ (subs.map Subject.name).Perm ((specFiles "" fsC4).map Prod.fst)) :=
  ⟨⟨rfl, fun _ _ => rfl, rfl⟩,
   claim_C4_enumeration osOK "art" fsC4 ["art"] rfl (fun _ _ => rfl) rfl⟩

end Provenance
